import Mathlib

/-!
# Verification of the malloclab allocator (src/mm.c)

Shallow embedding of the dynamic-memory allocator in `src/mm.c`.

The heap is modelled at the level of its block chain: the arena is the
prologue sentinel, a sequence of real blocks, and the epilogue sentinel.
Each real block is a `Block` (total size in bytes including the 4-byte
header and 4-byte footer, plus its allocation flag); the header and the
footer of a block always carry the same word in `mm.c` (`PUT(HDRP..)` /
`PUT(FTRP..)` are always paired, and `block_mark` writes both), so one
record per block is the faithful representation between operations.

Addresses are byte offsets from the start of the arena (`mem_heap_lo()`),
which `memlib` returns 8-byte aligned; the payload of the first real block
sits at offset 16 (after the alignment-padding word, the prologue
header/footer, and the block's own header, see `mm_init`).  The payload
address of block `k` is therefore `16 + (sum of the sizes of blocks 0..k-1)`.
These payload addresses are stable identifiers: all block surgery done by
the allocator (splitting, merging, appending) never moves a surviving
block.

The explicit doubly-linked free list (`dl_start`/`dl_end`, `struct POINTERS`)
is modelled as the list of payload addresses of its nodes in list order
(`dl_start` first, `dl_end` last).  `add_freeblock` appends at the tail;
`remove_freeblock` unlinks a node in O(1), which on a duplicate-free list
is exactly `List.erase`.

`mem_sbrk` is external (memlib); each operation that may extend the heap
takes a `sbrkOk : Bool` oracle: `false` models `mem_sbrk` returning -1
(no mutation happens in that case, matching the early returns in mm.c).

Machine integers: `size_t` arithmetic that can overflow is modelled with
an explicit `% 2 ^ 64` (the `ALIGN` macro, the adjusted-size computations,
and `calloc`'s multiplication); `uint32_t extendsize` in `mm_malloc` gets
an explicit `% 2 ^ 32`.
-/

set_option linter.unusedVariables false

namespace MM

/-- One real block of the heap: total size in bytes (header + payload +
footer, as stored in the boundary tag) and the allocation flag. -/
structure Block where
  size  : Nat
  alloc : Bool
deriving DecidableEq, Repr

/-- Allocator state: the chain of real blocks between the prologue and the
epilogue, in address order, and the explicit free list (payload addresses,
`dl_start` first). -/
structure Heap where
  blocks : List Block
  fl     : List Nat
deriving DecidableEq, Repr

/-- Sum of the sizes of a list of blocks. -/
def sumSizes (bs : List Block) : Nat := (bs.map Block.size).sum

/-- Payload address (offset from `mem_heap_lo()`) of block `k`:
the first real block's payload is at offset 16 (mm_init's padding word,
prologue header, prologue footer, then the block's header). -/
def addrOf (bs : List Block) (k : Nat) : Nat := 16 + sumSizes (bs.take k)

/-- Read block `k` of the chain.  Out-of-range reads return `⟨0, true⟩`:
one past the last block this is exactly the epilogue header (`PACK(0,1)`),
which is how mm.c terminates its chain walks. -/
def blockAt (bs : List Block) (k : Nat) : Block := bs.getD k ⟨0, true⟩

/-- `GET_ALLOC(HDRP(PREV_BLKP(bp)))` for block `k`: for the first real
block the previous block is the allocated prologue sentinel. -/
def prevAllocAt (bs : List Block) (k : Nat) : Bool :=
  if k = 0 then true else (blockAt bs (k - 1)).alloc

/-- `GET_ALLOC(HDRP(NEXT_BLKP(bp)))` for block `k`: past the last real
block this reads the allocated epilogue header. -/
def nextAllocAt (bs : List Block) (k : Nat) : Bool := (blockAt bs (k + 1)).alloc

/-- Resolve a payload address to a block index by walking the chain and
accumulating sizes (the inverse of the boundary-tag address arithmetic).
`cur` is the payload address of the block at index `i`. -/
def idxOfAux (a : Nat) : List Block → Nat → Nat → Option Nat
  | [], _, _ => none
  | b :: bs, cur, i => if cur = a then some i else idxOfAux a bs (cur + b.size) (i + 1)

/-- Index of the block whose payload address is `a`, if any. -/
def idxOf (bs : List Block) (a : Nat) : Option Nat := idxOfAux a bs 16 0

/-- `GET_SIZE(HDRP(bp))` for a payload address.  Reading a non-block
address is undefined behaviour in C; it is unreachable in all uses below
and modelled as 0. -/
def sizeAtAddr (bs : List Block) (a : Nat) : Nat :=
  match idxOf bs a with
  | some k => (blockAt bs k).size
  | none => 0

/-- `GET_ALLOC(HDRP(bp))` for a payload address.  One past the last block
this is the epilogue header (allocated); other non-block addresses are
undefined behaviour in C, unreachable below, and modelled as allocated. -/
def allocAtAddr (bs : List Block) (a : Nat) : Bool :=
  match idxOf bs a with
  | some k => (blockAt bs k).alloc
  | none => true

/-- `add_freeblock` (mm.c:254-269): append the node at the tail of the
doubly-linked free list (`dl_end`). -/
def add_freeblock (fl : List Nat) (a : Nat) : List Nat := fl ++ [a]

/-- `remove_freeblock` (mm.c:470-490): O(1) unlink of a node given its
address.  On a duplicate-free list that contains `a` this is exactly
erasing the entry; mm.c never removes a node that is not linked in. -/
def remove_freeblock (fl : List Nat) (a : Nat) : List Nat := fl.erase a

/-- The block-chain effect of the right-merge in `coalesce` (mm.c:318-321):
blocks `k` and `k+1` are replaced by a single free block of the summed
size (`size += GET_SIZE(HDRP(NEXT_BLKP(bp)))`, then `PUT` header and the
footer computed from the new size, which lands at the absorbed block's old
footer position). -/
def mergeNext (bs : List Block) (k : Nat) : List Block :=
  bs.take k ++ ⟨(blockAt bs k).size + (blockAt bs (k + 1)).size, false⟩ :: bs.drop (k + 2)

/-- Recursion body of `coalesce` (mm.c:298-327), with an explicit fuel
argument so that the function is structurally recursive (and therefore
computable by the kernel).  Decision tree of the source:
`if (prev_alloc && next_alloc) return bp;` /
`if (!prev_alloc) return coalesce(PREV_BLKP(bp));` /
`if (!next_alloc) { remove_freeblock(next); merge; if next now free,
return coalesce(bp); }` / `return bp;` — written as nested ifs testing
`!prev_alloc` first, which is the same decision tree.  Returns the new
heap and the index of the block the returned `bp` points at.  Each
left-recursion lowers the index and each right-merge shortens the chain,
so any fuel exceeding `h.blocks.length + k` makes the fuel-exhausted
base case unreachable (`coalesce` below supplies such a fuel; the
heap-invariant lemmas never peel more than `S.length + 1` layers). -/
def coalesceGo : Nat → Heap → Nat → Heap × Nat
  | 0, h, k => (h, k)
  | fuel + 1, h, k =>
    if prevAllocAt h.blocks k = false then
      coalesceGo fuel h (k - 1)
    else if nextAllocAt h.blocks k = false then
      let h' : Heap := ⟨mergeNext h.blocks k,
                        remove_freeblock h.fl (addrOf h.blocks (k + 1))⟩
      if nextAllocAt h'.blocks k = false then coalesceGo fuel h' k else (h', k)
    else (h, k)

/-- `coalesce` (mm.c:298-327): see `coalesceGo`. -/
def coalesce (h : Heap) (k : Nat) : Heap × Nat :=
  coalesceGo (h.blocks.length + k + 1) h k

/-- `mm_free` (mm.c:276-289): no-op on NULL; otherwise re-encode the
header and footer as free keeping the size, append to the free list, and
coalesce.  A non-NULL pointer that is not a block payload is undefined
behaviour in C (unreachable for valid calls); modelled as a no-op. -/
def mm_free (h : Heap) (p : Option Nat) : Heap :=
  match p with
  | none => h
  | some a =>
    match idxOf h.blocks a with
    | none => h
    | some k =>
      let size := (blockAt h.blocks k).size
      let h' : Heap := ⟨h.blocks.set k ⟨size, false⟩, add_freeblock h.fl a⟩
      (coalesce h' k).1

/-- `extend_heap` (mm.c:405-426): round the word count up to an even
number of words, grow the arena (oracle `sbrkOk`), encode the new space as
one free block (the old epilogue becomes its header, a new epilogue is
written after it), add it to the free list, and coalesce with a free
predecessor.  Returns the new heap and the index `coalesce` returned. -/
def extend_heap (h : Heap) (words : Nat) (sbrkOk : Bool) : Option (Heap × Nat) :=
  let size := if words % 2 = 1 then (words + 1) * 4 else words * 4
  if sbrkOk = false then none
  else
    let bs1 := h.blocks ++ [⟨size, false⟩]
    let a := addrOf bs1 h.blocks.length
    let h1 : Heap := ⟨bs1, add_freeblock h.fl a⟩
    some (coalesce h1 h.blocks.length)

/-- The `ALIGN` macro (mm.c:131): `((size) + (DSIZE-1)) & ~0x7` in
`size_t` arithmetic — round up to a multiple of 8, with the addition
wrapping at `2 ^ 64`. -/
def ALIGN (size : Nat) : Nat := (size + 7) % 2 ^ 64 / 8 * 8

/-- Adjusted block size computed by `mm_malloc` (mm.c:226-229): the
requested payload is floored at `2*DSIZE = 16`, then
`asize = 1*WSIZE + ALIGN(size) + 1*WSIZE`. -/
def malloc_adjust (size : Nat) : Nat :=
  let size := if size < 16 then 16 else size
  (4 + ALIGN size + 4) % 2 ^ 64

/-- Adjusted block size computed by `mm_realloc` (mm.c:355-358):
`asize = size; if (asize < 2*DSIZE) asize = 2*DSIZE;` is computed and then
overwritten by `asize = 1*WSIZE + ALIGN(size) + 1*WSIZE`, which uses the
raw `size` — the two-reference-width payload floor is dead. -/
def realloc_adjust (size : Nat) : Nat :=
  let asize0 := if size < 16 then 16 else size
  let asize := (4 + ALIGN size + 4) % 2 ^ 64
  asize

/-- `find_fit` loop (mm.c:501-512): scan from `dl_start`; the first block
with `asize <= GET_SIZE(HDRP(bp))` is returned immediately.  The best-fit
accumulator `best` (mm.c:499,504-510) sits after that unconditional
`return bp;`, so it is never updated and the final `return best;` can only
return the initial NULL. -/
def find_fit_loop (h : Heap) (asize : Nat) : List Nat → Option Nat → Option Nat
  | [], best => best
  | a :: rest, best =>
    if asize ≤ sizeAtAddr h.blocks a then some a
    else find_fit_loop h asize rest best

/-- `find_fit` (mm.c:495-514): first fit over the explicit free list. -/
def find_fit (h : Heap) (asize : Nat) : Option Nat :=
  find_fit_loop h asize h.fl none

/-- `place` (mm.c:447-466): carve `asize` bytes out of free block `k`.
If the leftover is at least `MINCHUNKSIZE = 4 + 2*8 + 4 = 24`, split:
remove the block from the free list, mark the low part allocated, encode
the remainder as a free block, append it to the free list and coalesce it.
Otherwise consume the whole block.  (The C test `(csize - asize) >=
MINCHUNKSIZE` is `size_t` subtraction; at every call site `asize ≤ csize`
holds, where it agrees with the `Nat` subtraction used here.) -/
def place (h : Heap) (k : Nat) (asize : Nat) : Heap :=
  let csize := (blockAt h.blocks k).size
  let bpA := addrOf h.blocks k
  if 24 ≤ csize - asize then
    let bs' := h.blocks.take k ++ ⟨asize, true⟩ :: ⟨csize - asize, false⟩ :: h.blocks.drop (k + 1)
    let h' : Heap := ⟨bs', add_freeblock (remove_freeblock h.fl bpA) (bpA + asize)⟩
    (coalesce h' (k + 1)).1
  else
    ⟨h.blocks.set k ⟨csize, true⟩, remove_freeblock h.fl bpA⟩

/-- `mm_malloc` (mm.c:212-251): NULL on a zero request; otherwise adjust
the size, search the free list first-fit, place on a hit; on a miss extend
the heap by `MAX(asize, 1<<9)` (converted through `uint32_t extendsize`)
and place in the returned block.  Returns the new heap and the payload
pointer (`none` = NULL). -/
def mm_malloc (h : Heap) (size : Nat) (sbrkOk : Bool) : Heap × Option Nat :=
  if size = 0 then (h, none)
  else
    let asize := malloc_adjust size
    match find_fit h asize with
    | some bp =>
      let k := (idxOf h.blocks bp).getD 0
      (place h k asize, some bp)
    | none =>
      let extendsize := max asize (2 ^ 9) % 2 ^ 32
      match extend_heap h (extendsize / 4) sbrkOk with
      | none => (h, none)
      | some (h1, r) => (place h1 r asize, some (addrOf h1.blocks r))

/-- `shrink` (mm.c:429-442).  The guard is `csize < asize` as written in
the source; its only caller (`mm_realloc`, line 362) runs it only when
`asize < csize`, so the splitting branch is dead in every execution.  The
branch body is translated per the source's write pattern (an allocated
block of `asize` bytes followed by a free block of `csize - asize` bytes,
added to the free list and coalesced); when `csize < asize` those writes
would in C land beyond the block, which no reachable call performs. -/
def shrink (h : Heap) (k : Nat) (asize : Nat) : Heap :=
  let csize := (blockAt h.blocks k).size
  if csize < asize then
    let bs' := h.blocks.take k ++ ⟨asize, true⟩ :: ⟨csize - asize, false⟩ :: h.blocks.drop (k + 1)
    let h' : Heap := ⟨bs', add_freeblock h.fl (addrOf h.blocks k + asize)⟩
    (coalesce h' (k + 1)).1
  else h

/-- The allocate-copy-free fallback of `mm_realloc` (mm.c:383-399):
`mm_malloc(size)`; on failure return NULL leaving the old block alone;
on success copy `min(size, oldsize)` payload bytes (payload contents are
not part of this model) and free the old block. -/
def mm_realloc_fallback (h : Heap) (p : Nat) (size : Nat) (sbrkOk : Bool) :
    Heap × Option Nat :=
  match mm_malloc h size sbrkOk with
  | (h2, none) => (h2, none)
  | (h2, some newptr) => (mm_free h2 (some p), some newptr)

/-- `mm_realloc` (mm.c:337-400): `size == 0` is `mm_free` returning NULL;
a NULL pointer is `mm_malloc`; otherwise compute the adjusted size
(`realloc_adjust`).  If it is below the current block size, `shrink` and
return the pointer unchanged.  Otherwise, if the right neighbour
(`NEXT_BLKP(ptr)`, payload `p + oldsize`) is free, coalesce it, re-read
the sizes, and if the merged size reaches the *raw* requested `size`,
remove the neighbour from the free list and rewrite the header/footer of
`ptr` as one allocated block in place.  In every remaining case fall back
to allocate-copy-free.  A non-NULL pointer that is not a block payload is
undefined behaviour in C (unreachable for valid calls). -/
def mm_realloc (h : Heap) (ptr : Option Nat) (size : Nat) (sbrkOk : Bool) :
    Heap × Option Nat :=
  if size = 0 then (mm_free h ptr, none)
  else
    match ptr with
    | none => mm_malloc h size sbrkOk
    | some p =>
      match idxOf h.blocks p with
      | none => (h, none)
      | some k =>
        let oldsize := (blockAt h.blocks k).size
        let asize := realloc_adjust size
        if asize < oldsize then
          (shrink h k asize, some p)
        else if allocAtAddr h.blocks (p + oldsize) = false then
          let h1 := (coalesce h ((idxOf h.blocks (p + oldsize)).getD 0)).1
          let new_size := sizeAtAddr h1.blocks (p + oldsize) + sizeAtAddr h1.blocks p
          if size ≤ new_size then
            let k1 := (idxOf h1.blocks p).getD 0
            (⟨h1.blocks.take k1 ++ ⟨new_size, true⟩ :: h1.blocks.drop (k1 + 2),
              remove_freeblock h1.fl (p + oldsize)⟩, some p)
          else
            mm_realloc_fallback h1 p size sbrkOk
        else
          mm_realloc_fallback h p size sbrkOk

/-- Result of `calloc`, including the arguments of the unconditional
`memset(newptr, 0, bytes)` call (mm.c:525): `memsetDst = none` records a
memset on the NULL pointer. -/
structure CallocResult where
  heap      : Heap
  ret       : Option Nat
  memsetDst : Option Nat
  memsetLen : Nat
deriving DecidableEq, Repr

/-- `calloc` (mm.c:520-528): `bytes = nmemb * size` in wrapping `size_t`
arithmetic (no overflow check), `mm_malloc(bytes)`, then an unconditional
`memset(newptr, 0, bytes)` — also when `mm_malloc` returned NULL. -/
def mm_calloc (h : Heap) (nmemb : Nat) (size : Nat) (sbrkOk : Bool) : CallocResult :=
  let bytes := nmemb * size % 2 ^ 64
  let r := mm_malloc h bytes sbrkOk
  { heap := r.1, ret := r.2, memsetDst := r.2, memsetLen := bytes }

/-- `mm_init` (mm.c:188-205): obtain 16 bytes for padding + prologue +
epilogue (`ok1`), then allocate the first block via
`extend_heap(MINCHUNKSIZE/WSIZE) = extend_heap(6)` (`ok2`).  On the
successful path the heap is one free 24-byte block.  (When the second
`mem_sbrk` fails, mm.c still returns status 0 with `heap_listp = NULL`;
no usable heap exists then, which this model folds into `none`.) -/
def mm_init (ok1 ok2 : Bool) : Option Heap :=
  if ok1 = false then none
  else
    match extend_heap ⟨[], []⟩ 6 ok2 with
    | some (h, _) => some h
    | none => none

/-- The heap right after a successful `mm_init`: one free block of
`MINCHUNKSIZE` rounded to 24 bytes, payload at offset 16, alone on the
free list. -/
def initHeap : Heap := ⟨[⟨24, false⟩], [16]⟩

/-- Per-block checks of `mm_checkblock` (mm.c:545-576) expressed on the
model: minimum block size, payload alignment, and (for a free block) that
neither neighbour is free.  The header-equals-footer check (point 8)
cannot fail in this representation because a block carries one boundary
tag for both words, and the containment check (point 6) is intrinsic to
the chain representation. -/
def mm_checkblock (bs : List Block) (k : Nat) : List String :=
  (if (blockAt bs k).size < 24 then ["Error: Block is too small"] else []) ++
  (if addrOf bs k % 8 ≠ 0 then ["Error: payload is not aligned"] else []) ++
  (if (blockAt bs k).alloc = false then
    (if prevAllocAt bs k = false then ["Error: Prev block is free"] else []) ++
    (if nextAllocAt bs k = false then ["Error: Next block is free"] else [])
  else [])

/-- `mm_checkheap` (mm.c:596-649): walk the block chain running the
per-block checks and counting free blocks, then compare that count with
the free-list length.  Every violation is only printed; the function ends
with an unconditional `return 0;`.  (The prologue/epilogue checks and the
`prev`/`next` link-symmetry checks are over state that is implicit in this
representation and cannot fire; `verbose` only controls printing.) -/
def mm_checkheap (h : Heap) (verbose : Bool) : List String × Int :=
  let blockDiags := ((List.range h.blocks.length).map (mm_checkblock h.blocks)).flatten
  let count1 := (h.blocks.filter (fun b => b.alloc = false)).length
  let count2 := h.fl.length
  let countDiag := if count1 ≠ count2 then ["Error: free blocks count not matching"] else []
  (blockDiags ++ countDiag, 0)

/-- The `checkheap` macro (mm.c:51-54): the caller aborts (prints and
`exit(-1)`) exactly when `mm_checkheap` returns a nonzero status. -/
def checkheapCallerAborts (h : Heap) (verbose : Bool) : Bool :=
  (mm_checkheap h verbose).2 != 0

/-! ## Public operations and reachable states -/

/-- A public allocator operation with its `mem_sbrk` oracle. -/
inductive Op where
  | alloc (size : Nat) (sbrkOk : Bool)
  | release (p : Option Nat)
  | reallocOp (p : Option Nat) (size : Nat) (sbrkOk : Bool)
  | callocOp (nmemb : Nat) (size : Nat) (sbrkOk : Bool)
deriving DecidableEq, Repr

/-- Heap after running one public operation. -/
def applyOp (h : Heap) : Op → Heap
  | .alloc size ok => (mm_malloc h size ok).1
  | .release p => mm_free h p
  | .reallocOp p size ok => (mm_realloc h p size ok).1
  | .callocOp n size ok => (mm_calloc h n size ok).heap

/-- A pointer argument that is valid to release/reallocate: the payload
address of a currently allocated block. -/
def validPtr (h : Heap) (a : Nat) : Prop :=
  ∃ k, idxOf h.blocks a = some k ∧ (blockAt h.blocks k).alloc = true

/-- NULL or a valid allocated-block pointer. -/
def validPtrOpt (h : Heap) (p : Option Nat) : Prop :=
  match p with
  | none => True
  | some a => validPtr h a

/-- Well-formed call: pointer arguments are NULL or valid allocated
blocks, and requested byte counts stay below `2^31` (beyond that the
`uint32_t extendsize` conversion in `mm_malloc` truncates and the C code
writes outside the region `mem_sbrk` returned, which the block model
cannot represent; real drivers never get near it because `mem_sbrk`
itself is capped). -/
def validOp (h : Heap) : Op → Prop
  | .alloc size _ => size ≤ 2 ^ 31
  | .release p => validPtrOpt h p
  | .reallocOp p size _ => validPtrOpt h p ∧ size ≤ 2 ^ 31
  | .callocOp n size _ => n * size % 2 ^ 64 ≤ 2 ^ 31

/-- Heaps reachable from a successful `mm_init` by valid public calls. -/
inductive Reachable : Heap → Prop where
  | init : Reachable initHeap
  | step {h : Heap} {op : Op} : Reachable h → validOp h op → Reachable (applyOp h op)

/-! ## Invariants -/

/-- The pair relation of the no-adjacent-free-blocks invariant: of two
neighbouring blocks at least one is allocated. -/
def okPair (x y : Block) : Prop := x.alloc = true ∨ y.alloc = true

instance : DecidableRel okPair := fun x y =>
  inferInstanceAs (Decidable (_ ∨ _))

/-- No two blocks adjacent in the block chain are both free. -/
def NoAdjFree (bs : List Block) : Prop := List.Chain' okPair bs

/-- Every block of the chain has at least the minimum chunk size
(`MINCHUNKSIZE = 24`) and a size that is a multiple of 8. -/
def sizesOk (bs : List Block) : Prop := ∀ b ∈ bs, 24 ≤ b.size ∧ b.size % 8 = 0

/-- Boolean check that `a` is the payload address of a free block. -/
def isFreeAddr (bs : List Block) (a : Nat) : Bool :=
  match idxOf bs a with
  | some k => !(blockAt bs k).alloc
  | none => false

/-- Every free-list entry is the payload address of a free block. -/
def flSound (h : Heap) : Prop := ∀ a ∈ h.fl, isFreeAddr h.blocks a = true

/-- Every free block of the chain is linked into the free list. -/
def flComplete (h : Heap) : Prop :=
  ∀ k ∈ List.range h.blocks.length,
    (blockAt h.blocks k).alloc = false → addrOf h.blocks k ∈ h.fl

/-- Master well-formedness invariant of an allocator state. -/
def WF (h : Heap) : Prop :=
  sizesOk h.blocks ∧ NoAdjFree h.blocks ∧ flSound h ∧ flComplete h ∧ h.fl.Nodup

/-- `a` is the payload address of an allocated block of size `s`;
used to state that the allocator never disturbs allocated blocks. -/
def AllocAt (bs : List Block) (a : Nat) (s : Nat) : Prop :=
  ∃ k, k < bs.length ∧ addrOf bs k = a ∧ blockAt bs k = ⟨s, true⟩

/-- `a` is the payload address of a free block of the chain. -/
def FreeAt (bs : List Block) (a : Nat) : Prop :=
  ∃ k, k < bs.length ∧ addrOf bs k = a ∧ (blockAt bs k).alloc = false

/-- Executable check for `NoAdjFree` (kernel-reducible, unlike the
generic `Chain'` decidability instance). -/
def noAdjFreeB : List Block → Bool
  | [] => true
  | [_] => true
  | x :: y :: l => (x.alloc || y.alloc) && noAdjFreeB (y :: l)

instance (bs : List Block) : Decidable (NoAdjFree bs) :=
  decidable_of_iff (noAdjFreeB bs = true) (by
    induction bs with
    | nil => simp [noAdjFreeB, NoAdjFree]
    | cons x l ih =>
      cases l with
      | nil => simp [noAdjFreeB, NoAdjFree]
      | cons y l' =>
        rw [NoAdjFree, List.chain'_cons, noAdjFreeB, Bool.and_eq_true, Bool.or_eq_true]
        rw [NoAdjFree] at ih
        rw [← ih]
        exact Iff.rfl.and Iff.rfl)

instance (bs : List Block) : Decidable (sizesOk bs) :=
  inferInstanceAs (Decidable (∀ b ∈ bs, 24 ≤ b.size ∧ b.size % 8 = 0))

instance (h : Heap) : Decidable (flSound h) :=
  inferInstanceAs (Decidable (∀ a ∈ h.fl, isFreeAddr h.blocks a = true))

instance (h : Heap) : Decidable (flComplete h) :=
  inferInstanceAs (Decidable (∀ k ∈ List.range h.blocks.length,
    (blockAt h.blocks k).alloc = false → addrOf h.blocks k ∈ h.fl))

instance (h : Heap) : Decidable (WF h) :=
  inferInstanceAs (Decidable (_ ∧ _ ∧ _ ∧ _ ∧ _))

instance (h : Heap) (a : Nat) : Decidable (validPtr h a) :=
  match hi : idxOf h.blocks a with
  | some k =>
    decidable_of_iff ((blockAt h.blocks k).alloc = true) (by
      constructor
      · intro ha; exact ⟨k, hi, ha⟩
      · rintro ⟨k', hk', ha⟩; rw [hi] at hk'; cases hk'; exact ha)
  | none => isFalse (by rintro ⟨k, hk, -⟩; rw [hi] at hk; cases hk)

instance (h : Heap) (p : Option Nat) : Decidable (validPtrOpt h p) :=
  match p with
  | none => isTrue trivial
  | some a => inferInstanceAs (Decidable (validPtr h a))

end MM

/-! ## Theorems -/

namespace MM

/-- The successful `mm_init` path produces `initHeap`. -/
theorem mm_init_true_true : mm_init true true = some initHeap := by decide

/-- `find_fit_loop` with a `NULL` accumulator is a plain first-match scan. -/
theorem find_fit_loop_eq_find? (h : Heap) (asize : Nat) (l : List Nat) :
    find_fit_loop h asize l none = l.find? (fun a => decide (asize ≤ sizeAtAddr h.blocks a)) := by
  induction l with
  | nil => rfl
  | cons a rest ih =>
    by_cases hle : asize ≤ sizeAtAddr h.blocks a
    · simp [find_fit_loop, List.find?, hle]
    · simp [find_fit_loop, List.find?, hle, ih]

/-- C6: `find_fit` scans the free list from the head (`dl_start`) and
returns the first block whose size is at least the required `asize`; it
returns `none` (NULL) exactly when no free-list entry is big enough — the
observable policy is first-fit, never best-fit (the best-fit accumulator
in the source is dead code behind an unconditional `return`). -/
theorem C6_find_fit_first_fit (h : Heap) (asize : Nat) :
    find_fit h asize = h.fl.find? (fun a => decide (asize ≤ sizeAtAddr h.blocks a)) ∧
    (find_fit h asize = none ↔ ∀ a ∈ h.fl, sizeAtAddr h.blocks a < asize) := by
  refine ⟨find_fit_loop_eq_find? h asize h.fl, ?_⟩
  rw [find_fit, find_fit_loop_eq_find? h asize h.fl, List.find?_eq_none]
  simp [Nat.not_le, Nat.lt_iff_add_one_le]

/-- C7: `mm_realloc(ptr, 0)` behaves exactly as `mm_free(ptr)` — including
all of the latter's re-encoding, free-list insertion and coalescing — and
returns NULL. -/
theorem C7_realloc_zero_is_free (h : Heap) (p : Option Nat) (sbrkOk : Bool) :
    mm_realloc h p 0 sbrkOk = (mm_free h p, none) := by
  simp [mm_realloc]

/-- C9: `mm_checkheap` returns status 0 unconditionally — also on heaps it
prints structural violations for — so the `checkheap` macro's caller,
which aborts on a nonzero status, never aborts. -/
theorem C9_checkheap_always_zero (h : Heap) (verbose : Bool) :
    (mm_checkheap h verbose).2 = 0 ∧ checkheapCallerAborts h verbose = false := by
  exact ⟨rfl, rfl⟩

/-- C10 counterexample: for the request size 9 — nonzero and smaller than
the two-reference-width minimum payload 16 — `mm_realloc`'s adjusted size
equals `mm_malloc`'s (both are 24, because `ALIGN` lifts 9 to 16 anyway),
refuting "reallocate's size adjustment differs from allocate's for
requests smaller than the minimum payload". -/
theorem C10_cex_size_nine :
    0 < 9 ∧ 9 < 16 ∧ realloc_adjust 9 = malloc_adjust 9 := by decide

/-- C10 (amended): for a nonzero request, `mm_realloc` computes its
adjusted size as header + footer + `ALIGN(size)` from the *raw* size —
the two-reference-width payload floor is computed and then overwritten —
and this differs from `mm_malloc`'s adjusted size exactly for requests of
at most 8 bytes (for 9 ≤ size ≤ 15 the alignment step makes them agree). -/
theorem C10_realloc_adjust_no_floor (size : Nat) (hpos : 0 < size) :
    realloc_adjust size = (4 + ALIGN size + 4) % 2 ^ 64 ∧
    (realloc_adjust size ≠ malloc_adjust size ↔ size ≤ 8) := by
  refine ⟨rfl, ?_⟩
  by_cases h16 : size < 16
  · interval_cases size <;> decide
  · have he : realloc_adjust size = malloc_adjust size := by
      simp [realloc_adjust, malloc_adjust, h16]
    simp only [he, ne_eq, not_true_eq_false, false_iff]
    omega

/-- C10 witness: the amended characterization evaluated at size 3. -/
theorem C10_witness :
    0 < 3 ∧ (realloc_adjust 3 = (4 + ALIGN 3 + 4) % 2 ^ 64 ∧
      (realloc_adjust 3 ≠ malloc_adjust 3 ↔ 3 ≤ 8)) :=
  ⟨by decide, C10_realloc_adjust_no_floor 3 (by decide)⟩

/-- C2: the shrink path of `mm_realloc` never splits.  Concrete run: from
the heap reached by `mm_init` then `mm_malloc(33)` (an allocated 48-byte
block followed by a 488-byte free block), `mm_realloc(p, 9)` has adjusted
size 24 and leftover 48 − 24 = 24 ≥ MINCHUNKSIZE, so per the claim the
remainder must be split off and freed — but the heap is returned
completely untouched, because `shrink`'s guard `csize < asize` (mm.c:432)
is the inversion of what its own comment ("shrink will split an allocated
block into an allocated and a free", mm.c:428) requires, and is always
false at its only call site. -/
theorem C2_shrink_never_splits :
    (mm_malloc initHeap 33 true).1 = ⟨[⟨48, true⟩, ⟨488, false⟩], [64]⟩ ∧
    realloc_adjust 9 = 24 ∧
    mm_realloc ⟨[⟨48, true⟩, ⟨488, false⟩], [64]⟩ (some 16) 9 true =
      (⟨[⟨48, true⟩, ⟨488, false⟩], [64]⟩, some 16) := by decide

/-- C4: `calloc` does not detect multiplication overflow.  With
`nmemb = 2^62 + 1` and `size = 4` the product wraps to 4 in `size_t`
arithmetic, and `calloc` allocates and zero-fills a 4-byte region and
returns a pointer instead of reporting InvalidArgument. -/
theorem C4_calloc_overflow_wraps :
    (2 ^ 62 + 1) * 4 % 2 ^ 64 = 4 ∧
    (mm_calloc initHeap (2 ^ 62 + 1) 4 true).ret = some 16 ∧
    (mm_calloc initHeap (2 ^ 62 + 1) 4 true).memsetLen = 4 := by decide

/-- C5: when the allocation inside `calloc` fails, `calloc` does return
NULL, but the zero-fill still runs: `memset(newptr, 0, bytes)` is
unconditional (mm.c:525), so it is invoked with the NULL pointer and a
nonzero length — e.g. `calloc(1, 40)` when `mem_sbrk` fails. -/
theorem C5_calloc_memsets_null_on_failure :
    (mm_calloc initHeap 1 40 false).ret = none ∧
    (mm_calloc initHeap 1 40 false).memsetDst = none ∧
    (mm_calloc initHeap 1 40 false).memsetLen = 40 := by decide

end MM

namespace MM

/-! ### Basic facts about sizes, addresses and block reads -/

theorem sumSizes_nil : sumSizes ([] : List Block) = 0 := rfl

theorem sumSizes_cons (b : Block) (bs : List Block) :
    sumSizes (b :: bs) = b.size + sumSizes bs := by
  simp [sumSizes]

theorem sumSizes_append (P Q : List Block) :
    sumSizes (P ++ Q) = sumSizes P + sumSizes Q := by
  simp [sumSizes]

theorem blockAt_append_left {P : List Block} (Q : List Block) {k : Nat}
    (hk : k < P.length) : blockAt (P ++ Q) k = blockAt P k := by
  rw [blockAt, blockAt, List.getD_append _ _ _ _ hk]

theorem blockAt_concat_self (P S : List Block) (b : Block) :
    blockAt (P ++ b :: S) P.length = b := by
  rw [blockAt, List.getD_append_right _ _ _ _ (Nat.le_refl _), Nat.sub_self,
    List.getD_cons_zero]

theorem blockAt_concat_right (P S : List Block) (b : Block) (i : Nat) :
    blockAt (P ++ b :: S) (P.length + 1 + i) = blockAt S i := by
  rw [blockAt, List.getD_append_right _ _ _ _ (by omega)]
  have : P.length + 1 + i - P.length = i + 1 := by omega
  simp [this, blockAt]

theorem blockAt_oob {bs : List Block} {k : Nat} (h : bs.length ≤ k) :
    blockAt bs k = ⟨0, true⟩ := by
  rw [blockAt, List.getD_eq_default _ _ h]

theorem blockAt_mem {bs : List Block} {k : Nat} (h : k < bs.length) :
    blockAt bs k ∈ bs := by
  simp only [blockAt, List.getD_eq_getElem?_getD, List.getElem?_eq_getElem h,
    Option.getD_some]
  exact List.getElem_mem h

theorem addrOf_append_left {P : List Block} (Q : List Block) {j : Nat}
    (hj : j ≤ P.length) : addrOf (P ++ Q) j = addrOf P j := by
  simp [addrOf, List.take_append_of_le_length hj]

theorem addrOf_concat_self (P S : List Block) (b : Block) :
    addrOf (P ++ b :: S) P.length = 16 + sumSizes P := by
  rw [addrOf, List.take_append_of_le_length (Nat.le_refl _), List.take_length]

theorem addrOf_concat_right (P S : List Block) (b : Block) (i : Nat) :
    addrOf (P ++ b :: S) (P.length + 1 + i) =
      16 + sumSizes P + b.size + sumSizes (S.take i) := by
  have h1 : P ++ b :: S = (P ++ [b]) ++ S := by simp
  have h2 : P.length + 1 + i = (P ++ [b]).length + i := by simp
  rw [addrOf, h1, h2, List.take_append, sumSizes_append, sumSizes_append, sumSizes_cons]
  simp [sumSizes]; omega

theorem addrOf_zero (bs : List Block) : addrOf bs 0 = 16 := by
  simp [addrOf, sumSizes]

/-- Strict monotonicity of payload addresses along the chain (block sizes
are positive). -/
theorem addrOf_lt_addrOf {bs : List Block} (hpos : ∀ b ∈ bs, 0 < b.size)
    {i j : Nat} (hij : i < j) (hj : j ≤ bs.length) :
    addrOf bs i < addrOf bs j := by
  have hdecomp : bs.take j = bs.take i ++ (bs.drop i).take (j - i) := by
    conv_lhs => rw [show j = i + (j - i) from by omega]
    rw [List.take_add]
  have hlen : 0 < ((bs.drop i).take (j - i)).length := by
    simp only [List.length_take, List.length_drop]
    omega
  obtain ⟨c, rest, hcr⟩ : ∃ c rest, (bs.drop i).take (j - i) = c :: rest := by
    cases hc : (bs.drop i).take (j - i) with
    | nil => rw [hc] at hlen; simp at hlen
    | cons c rest => exact ⟨c, rest, rfl⟩
  have hcmem : c ∈ bs := by
    have : c ∈ (bs.drop i).take (j - i) := by rw [hcr]; exact List.mem_cons_self _ _
    exact List.mem_of_mem_drop (List.mem_of_mem_take this)
  have := hpos c hcmem
  rw [addrOf, addrOf, hdecomp, sumSizes_append, hcr, sumSizes_cons]
  omega

/-- Payload addresses are distinct along the chain. -/
theorem addrOf_inj {bs : List Block} (hpos : ∀ b ∈ bs, 0 < b.size)
    {i j : Nat} (hi : i ≤ bs.length) (hj : j ≤ bs.length)
    (he : addrOf bs i = addrOf bs j) : i = j := by
  rcases Nat.lt_trichotomy i j with h | h | h
  · exact absurd he (Nat.ne_of_lt (addrOf_lt_addrOf hpos h hj))
  · exact h
  · exact absurd he.symm (Nat.ne_of_lt (addrOf_lt_addrOf hpos h hi))

/-! ### `idxOf` soundness and completeness -/

theorem idxOfAux_sound {a : Nat} :
    ∀ (bs : List Block) (cur i j : Nat), idxOfAux a bs cur i = some j →
      i ≤ j ∧ j - i < bs.length ∧ cur + sumSizes (bs.take (j - i)) = a := by
  intro bs
  induction bs with
  | nil => intro cur i j h; simp [idxOfAux] at h
  | cons b rest ih =>
    intro cur i j h
    rw [idxOfAux] at h
    by_cases hc : cur = a
    · rw [if_pos hc] at h
      injection h with h
      subst h
      refine ⟨Nat.le_refl _, by simp, by simp [sumSizes, hc]⟩
    · rw [if_neg hc] at h
      obtain ⟨h1, h2, h3⟩ := ih (cur + b.size) (i + 1) j h
      refine ⟨by omega, by simp; omega, ?_⟩
      have hji : j - i = (j - (i + 1)) + 1 := by omega
      rw [hji, List.take_succ_cons, sumSizes_cons]
      omega

theorem idxOf_sound {bs : List Block} {a j : Nat} (h : idxOf bs a = some j) :
    j < bs.length ∧ addrOf bs j = a := by
  obtain ⟨h1, h2, h3⟩ := idxOfAux_sound bs 16 0 j h
  simpa [addrOf] using ⟨by simpa using h2, h3⟩

theorem idxOfAux_complete :
    ∀ (bs : List Block) (cur i k : Nat), (∀ b ∈ bs, 0 < b.size) → k < bs.length →
      idxOfAux (cur + sumSizes (bs.take k)) bs cur i = some (i + k) := by
  intro bs
  induction bs with
  | nil => intro cur i k _ hk; simp at hk
  | cons b rest ih =>
    intro cur i k hpos hk
    match k with
    | 0 => simp [idxOfAux, sumSizes]
    | k' + 1 =>
      rw [idxOfAux, List.take_succ_cons, sumSizes_cons]
      have hb : 0 < b.size := hpos b (List.mem_cons_self _ _)
      rw [if_neg (by omega)]
      have := ih (cur + b.size) (i + 1) k' (fun x hx => hpos x (List.mem_cons_of_mem _ hx))
        (by simpa using hk)
      rw [show cur + (b.size + sumSizes (rest.take k')) = cur + b.size + sumSizes (rest.take k') from by omega, this]
      congr 1
      omega

theorem idxOf_addrOf {bs : List Block} (hpos : ∀ b ∈ bs, 0 < b.size) {k : Nat}
    (hk : k < bs.length) : idxOf bs (addrOf bs k) = some k := by
  simpa [idxOf, addrOf] using idxOfAux_complete bs 16 0 k hpos hk

theorem sizeAtAddr_addrOf {bs : List Block} (hpos : ∀ b ∈ bs, 0 < b.size) {k : Nat}
    (hk : k < bs.length) : sizeAtAddr bs (addrOf bs k) = (blockAt bs k).size := by
  simp [sizeAtAddr, idxOf_addrOf hpos hk]

theorem allocAtAddr_addrOf {bs : List Block} (hpos : ∀ b ∈ bs, 0 < b.size) {k : Nat}
    (hk : k < bs.length) : allocAtAddr bs (addrOf bs k) = (blockAt bs k).alloc := by
  simp [allocAtAddr, idxOf_addrOf hpos hk]

theorem isFreeAddr_iff {bs : List Block} (hpos : ∀ b ∈ bs, 0 < b.size) (a : Nat) :
    isFreeAddr bs a = true ↔
      ∃ k, k < bs.length ∧ addrOf bs k = a ∧ (blockAt bs k).alloc = false := by
  constructor
  · intro h
    rw [isFreeAddr] at h
    cases hi : idxOf bs a with
    | none => rw [hi] at h; simp at h
    | some k =>
      rw [hi] at h
      obtain ⟨h1, h2⟩ := idxOf_sound hi
      exact ⟨k, h1, h2, by simpa using h⟩
  · rintro ⟨k, hk, rfl, hfree⟩
    simp [isFreeAddr, idxOf_addrOf hpos hk, hfree]



/-! ### Evaluating the neighbour reads on a decomposed chain -/

theorem prevAllocAt_concat_true {P : List Block} (S : List Block) (b : Block)
    (hP : ∀ x ∈ P.getLast?, x.alloc = true) :
    prevAllocAt (P ++ b :: S) P.length = true := by
  rcases List.eq_nil_or_concat P with rfl | ⟨Q, p, rfl⟩
  · simp [prevAllocAt]
  · simp only [List.concat_eq_append] at hP ⊢
    rw [prevAllocAt, if_neg (by simp)]
    have h1 : (Q ++ [p]).length - 1 = Q.length := by simp
    have h2 : (Q ++ [p]) ++ b :: S = Q ++ p :: (b :: S) := by simp
    rw [h1, h2, blockAt_concat_self]
    exact hP p (by rw [List.getLast?_concat]; rfl)

theorem prevAllocAt_concat_false {P S : List Block} {b : Block}
    (h : prevAllocAt (P ++ b :: S) P.length = false) :
    ∃ Q p, P = Q ++ [p] ∧ p.alloc = false := by
  rcases List.eq_nil_or_concat P with rfl | ⟨Q, p, rfl⟩
  · simp [prevAllocAt] at h
  · simp only [List.concat_eq_append] at h ⊢
    refine ⟨Q, p, rfl, ?_⟩
    rw [prevAllocAt, if_neg (by simp)] at h
    have h1 : (Q ++ [p]).length - 1 = Q.length := by simp
    have h2 : (Q ++ [p]) ++ b :: S = Q ++ p :: (b :: S) := by simp
    rwa [h1, h2, blockAt_concat_self] at h

theorem nextAllocAt_concat (P S : List Block) (b : Block) :
    nextAllocAt (P ++ b :: S) P.length = ((S.head?.map Block.alloc).getD true) := by
  cases S with
  | nil =>
    rw [nextAllocAt, blockAt_oob (by simp)]
    rfl
  | cons c S' =>
    rw [nextAllocAt, show P.length + 1 = P.length + 1 + 0 from rfl,
      blockAt_concat_right]
    rfl

theorem mergeNext_concat (P S' : List Block) (b c : Block) :
    mergeNext (P ++ b :: c :: S') P.length = P ++ ⟨b.size + c.size, false⟩ :: S' := by
  rw [mergeNext, blockAt_concat_self,
    show P.length + 1 = P.length + 1 + 0 from rfl, blockAt_concat_right]
  have h1 : List.take P.length (P ++ b :: c :: S') = P :=
    List.take_left' rfl
  have h2 : List.drop (P.length + 2) (P ++ b :: c :: S') = S' := by
    have : P ++ b :: c :: S' = (P ++ [b, c]) ++ S' := by simp
    rw [this, List.drop_left' (by simp)]
  rw [h1, h2]
  rfl

theorem addrOf_concat_next (P S : List Block) (b : Block) :
    addrOf (P ++ b :: S) (P.length + 1) = 16 + sumSizes P + b.size := by
  rw [show P.length + 1 = P.length + 1 + 0 from rfl, addrOf_concat_right]
  simp [sumSizes]

/-! ### Transfer of the free-list invariants across a right-merge -/

/-- All invariant bookkeeping for one right-merge of `coalesce`: replacing
the adjacent free block `b` and its right neighbour `c` by one free block
of the summed size, and erasing `c`'s payload address from the free list. -/
theorem merge_step_facts (P S' : List Block) (b c : Block) (fl : List Nat)
    (hb : b.alloc = false)
    (hsz : sizesOk (P ++ b :: c :: S'))
    (hflS : flSound ⟨P ++ b :: c :: S', fl⟩)
    (hflC : flComplete ⟨P ++ b :: c :: S', fl⟩)
    (hnd : fl.Nodup) :
    sizesOk (P ++ ⟨b.size + c.size, false⟩ :: S') ∧
    flSound ⟨P ++ ⟨b.size + c.size, false⟩ :: S', fl.erase (16 + sumSizes P + b.size)⟩ ∧
    flComplete ⟨P ++ ⟨b.size + c.size, false⟩ :: S', fl.erase (16 + sumSizes P + b.size)⟩ ∧
    (fl.erase (16 + sumSizes P + b.size)).Nodup := by
  set b' : Block := (⟨b.size + c.size, false⟩ : Block) with hb'
  set bs : List Block := P ++ b :: c :: S' with hbs
  set bs' : List Block := P ++ b' :: S' with hbs'
  have hlen : bs.length = P.length + 2 + S'.length := by simp [hbs]; omega
  have hlen' : bs'.length = P.length + 1 + S'.length := by simp [hbs']; omega
  have hbmem : b ∈ bs := by simp [hbs]
  have hcmem : c ∈ bs := by simp [hbs]
  have hsz' : sizesOk bs' := by
    intro x hx
    rw [hbs'] at hx
    rcases List.mem_append.1 hx with hx | hx
    · exact hsz x (by simp [hbs, hx])
    · rcases List.mem_cons.1 hx with rfl | hx
      · have h1 := hsz b hbmem
        have h2 := hsz c hcmem
        refine ⟨by simp [hb']; omega, by simp [hb']; omega⟩
      · exact hsz x (by simp [hbs, hx])
  have hpos : ∀ x ∈ bs, 0 < x.size := fun x hx => by have := (hsz x hx).1; omega
  have hpos' : ∀ x ∈ bs', 0 < x.size := fun x hx => by have := (hsz' x hx).1; omega
  have corrL : ∀ j, j ≤ P.length → addrOf bs' j = addrOf bs j := by
    intro j hj
    rw [hbs, hbs', addrOf_append_left _ hj, addrOf_append_left _ hj]
  have corrLb : ∀ j, j < P.length → blockAt bs' j = blockAt bs j := by
    intro j hj
    rw [hbs, hbs', blockAt_append_left _ hj, blockAt_append_left _ hj]
  have corrMid : addrOf bs' P.length = addrOf bs P.length := corrL _ (Nat.le_refl _)
  have corrR : ∀ i, addrOf bs' (P.length + 1 + i) = addrOf bs (P.length + 2 + i) := by
    intro i
    rw [hbs, hbs', addrOf_concat_right]
    rw [show P.length + 2 + i = P.length + 1 + (1 + i) from by omega, addrOf_concat_right]
    rw [show (1 : Nat) + i = i + 1 from by omega, List.take_succ_cons, sumSizes_cons]
    simp [hb']
    omega
  have corrRb : ∀ i, blockAt bs' (P.length + 1 + i) = blockAt bs (P.length + 2 + i) := by
    intro i
    rw [hbs, hbs', blockAt_concat_right]
    rw [show P.length + 2 + i = P.length + 1 + (1 + i) from by omega, blockAt_concat_right]
    rw [show (1 : Nat) + i = i + 1 from by omega]
    rfl
  have hAc : addrOf bs (P.length + 1) = 16 + sumSizes P + b.size := by
    rw [hbs]; exact addrOf_concat_next _ _ _
  refine ⟨hsz', ?_, ?_, hnd.erase _⟩
  · -- flSound is preserved
    intro a ha
    have hane : a ≠ 16 + sumSizes P + b.size := (hnd.mem_erase_iff.1 ha).1
    have hafl : a ∈ fl := (hnd.mem_erase_iff.1 ha).2
    have hfa := hflS a hafl
    rw [show Heap.blocks ⟨P ++ b :: c :: S', fl⟩ = bs from rfl] at hfa
    rw [isFreeAddr_iff hpos] at hfa
    obtain ⟨j, hj, haddr, hfree⟩ := hfa
    show isFreeAddr bs' a = true
    rw [isFreeAddr_iff hpos']
    rcases Nat.lt_trichotomy j P.length with hjP | rfl | hjP
    · exact ⟨j, by omega, by rw [corrL j (by omega)]; exact haddr,
        by rw [corrLb j hjP]; exact hfree⟩
    · refine ⟨P.length, by omega, by rw [corrMid]; exact haddr, ?_⟩
      rw [hbs', blockAt_concat_self]
    · have hj1 : j ≠ P.length + 1 := by
        intro e
        rw [e, hAc] at haddr
        exact hane haddr.symm
      refine ⟨P.length + 1 + (j - P.length - 2), by omega, ?_, ?_⟩
      · rw [corrR, show P.length + 2 + (j - P.length - 2) = j from by omega]
        exact haddr
      · rw [corrRb, show P.length + 2 + (j - P.length - 2) = j from by omega]
        exact hfree
  · -- flComplete is preserved
    intro k hk hfree
    rw [List.mem_range] at hk
    rw [hlen'] at hk
    show addrOf bs' k ∈ fl.erase (16 + sumSizes P + b.size)
    have hmem_of : ∀ x, x ∈ fl → x ≠ 16 + sumSizes P + b.size →
        x ∈ fl.erase (16 + sumSizes P + b.size) := by
      intro x hx hne
      exact (List.mem_erase_of_ne hne).2 hx
    rcases Nat.lt_trichotomy k P.length with hkP | rfl | hkP
    · have hfr : (blockAt bs k).alloc = false := by rw [← corrLb k hkP]; exact hfree
      have hin : addrOf bs k ∈ fl := by
        apply hflC k (by rw [List.mem_range, hlen]; omega)
        exact hfr
      rw [corrL k (by omega)]
      apply hmem_of _ hin
      rw [← hAc]
      have := addrOf_lt_addrOf hpos (show k < P.length + 1 from by omega)
        (show P.length + 1 ≤ bs.length from by omega)
      omega
    · have hin : addrOf bs P.length ∈ fl := by
        apply hflC P.length (by rw [List.mem_range, hlen]; omega)
        rw [hbs, blockAt_concat_self]
        exact hb
      rw [corrMid]
      apply hmem_of _ hin
      rw [← hAc]
      have := addrOf_lt_addrOf hpos (show P.length < P.length + 1 from by omega)
        (show P.length + 1 ≤ bs.length from by omega)
      omega
    · obtain ⟨i, rfl⟩ : ∃ i, k = P.length + 1 + i := ⟨k - P.length - 1, by omega⟩
      have hfr : (blockAt bs (P.length + 2 + i)).alloc = false := by
        rw [← corrRb]; exact hfree
      have hin : addrOf bs (P.length + 2 + i) ∈ fl := by
        apply hflC (P.length + 2 + i) (by rw [List.mem_range, hlen]; omega)
        exact hfr
      rw [corrR]
      apply hmem_of _ hin
      rw [← hAc]
      have := addrOf_lt_addrOf hpos (show P.length + 1 < P.length + 2 + i from by omega)
        (show P.length + 2 + i ≤ bs.length from by omega)
      omega


/-! ### The main specification of the `coalesce` recursion -/

/-- Specification of `coalesceGo` on a free block `b` whose left
neighbour is allocated (or which is the first block): the call absorbs
exactly a prefix of the blocks to its right (all of them free, their
free-list entries erased), never moves, and restores the
no-adjacent-free-blocks invariant together with the free-list
invariants. -/
theorem coalesceGo_R (P : List Block) :
    ∀ (S : List Block) (fuel : Nat) (b : Block) (fl : List Nat),
      S.length < fuel →
      b.alloc = false →
      List.Chain' okPair P →
      (∀ x ∈ P.getLast?, x.alloc = true) →
      List.Chain' okPair (S.drop 1) →
      sizesOk (P ++ b :: S) →
      flSound ⟨P ++ b :: S, fl⟩ →
      flComplete ⟨P ++ b :: S, fl⟩ →
      fl.Nodup →
      ∃ b' S' fl' m,
        coalesceGo fuel ⟨P ++ b :: S, fl⟩ P.length = (⟨P ++ b' :: S', fl'⟩, P.length) ∧
        b'.alloc = false ∧
        m ≤ S.length ∧ S' = S.drop m ∧
        b'.size = b.size + sumSizes (S.take m) ∧
        (∀ x ∈ S.take m, x.alloc = false) ∧
        NoAdjFree (P ++ b' :: S') ∧
        sizesOk (P ++ b' :: S') ∧
        flSound ⟨P ++ b' :: S', fl'⟩ ∧
        flComplete ⟨P ++ b' :: S', fl'⟩ ∧
        fl'.Nodup := by
  intro S
  induction S with
  | nil =>
    intro fuel b fl hfuel hb hP hPlast hS hsz hflS hflC hnd
    obtain ⟨f, rfl⟩ : ∃ f, fuel = f + 1 := ⟨fuel - 1, by omega⟩
    simp only [coalesceGo]
    rw [if_neg (by rw [prevAllocAt_concat_true _ _ hPlast]; simp)]
    rw [if_neg (by rw [nextAllocAt_concat]; simp)]
    refine ⟨b, [], fl, 0, rfl, hb, by simp, rfl, by simp [sumSizes], by simp,
      ?_, hsz, hflS, hflC, hnd⟩
    exact List.Chain'.append hP (List.chain'_singleton b) (fun x hx y hy => by
      simp at hy; subst hy; exact Or.inl (hPlast x hx))
  | cons c S' ih =>
    intro fuel b fl hfuel hb hP hPlast hS hsz hflS hflC hnd
    obtain ⟨f, rfl⟩ : ∃ f, fuel = f + 1 := ⟨fuel - 1, by omega⟩
    have hS' : List.Chain' okPair S' := by simpa using hS
    simp only [coalesceGo]
    rw [if_neg (by rw [prevAllocAt_concat_true _ _ hPlast]; simp)]
    by_cases hc : c.alloc = true
    · -- right neighbour allocated: terminal, nothing merged
      rw [if_neg (by rw [nextAllocAt_concat]; simp [hc])]
      refine ⟨b, c :: S', fl, 0, rfl, hb, by simp, rfl, by simp [sumSizes], by simp,
        ?_, hsz, hflS, hflC, hnd⟩
      refine List.Chain'.append hP ?_ (fun x hx y hy => by
        simp at hy; subst hy; exact Or.inl (hPlast x hx))
      rw [List.chain'_cons]
      refine ⟨Or.inr hc, ?_⟩
      rw [List.chain'_cons']
      exact ⟨fun y hy => Or.inl hc, hS'⟩
    · -- right neighbour free: merge it in
      have hcf : c.alloc = false := by
        cases hca : c.alloc
        · rfl
        · exact absurd hca hc
      rw [if_pos (by rw [nextAllocAt_concat]; simp [hcf])]
      simp only [mergeNext_concat, addrOf_concat_next]
      obtain ⟨hsz2, hflS2, hflC2, hnd2⟩ :=
        merge_step_facts P S' b c fl hb hsz hflS hflC hnd
      by_cases hna : (S'.head?.map Block.alloc).getD true = false
      · -- the new right neighbour is free as well: recurse
        rw [if_pos (by rw [nextAllocAt_concat]; exact hna)]
        obtain ⟨b2, S2, fl2, m2, heq, hb2, hm2, hS2, hsz2', hpre2, hnadj2,
          hszf, hflS3, hflC3, hnd3⟩ :=
          ih f (⟨b.size + c.size, false⟩ : Block) (fl.erase (16 + sumSizes P + b.size))
            (by simp at hfuel; omega) rfl hP hPlast
            (by rw [List.drop_one]; exact hS'.tail) hsz2 hflS2 hflC2 hnd2
        refine ⟨b2, S2, fl2, m2 + 1, heq, hb2, by simp; omega, ?_, ?_, ?_,
          hnadj2, hszf, hflS3, hflC3, hnd3⟩
        · rw [hS2, List.drop_succ_cons]
        · rw [hsz2', List.take_succ_cons, sumSizes_cons]
          simp
          omega
        · intro x hx
          rw [List.take_succ_cons] at hx
          rcases List.mem_cons.1 hx with rfl | hx
          · exact hcf
          · exact hpre2 x hx
      · -- the new right neighbour is allocated: terminal after one merge
        rw [if_neg (by rw [nextAllocAt_concat]; exact hna)]
        have hhead : ∀ y ∈ S'.head?, y.alloc = true := by
          intro y hy
          cases S' with
          | nil => simp at hy
          | cons d S'' =>
            simp at hy
            subst hy
            simp at hna
            exact hna
        refine ⟨⟨b.size + c.size, false⟩, S', fl.erase (16 + sumSizes P + b.size), 1,
          rfl, rfl, by simp, by rw [List.drop_succ_cons, List.drop_zero],
          by simp [sumSizes], ?_, ?_, hsz2, hflS2, hflC2, hnd2⟩
        · intro x hx
          simp at hx
          subst hx
          exact hcf
        · refine List.Chain'.append hP ?_ (fun x hx y hy => by
            simp at hy; subst hy; exact Or.inl (hPlast x hx))
          rw [List.chain'_cons']
          exact ⟨fun y hy => Or.inr (hhead y hy), hS'⟩


/-! ### Frame lemmas and the `coalesce` wrapper -/

theorem blockAt_eq_getElem {bs : List Block} {k : Nat} (hk : k < bs.length) :
    blockAt bs k = bs[k] := by
  rw [blockAt, List.getD_eq_getElem?_getD, List.getElem?_eq_getElem hk, Option.getD_some]

theorem blockAt_take {S : List Block} {m i : Nat} (him : i < m) :
    blockAt (S.take m) i = blockAt S i := by
  rw [blockAt, blockAt, List.getD_eq_getElem?_getD, List.getD_eq_getElem?_getD,
    List.getElem?_take_of_lt him]

theorem blockAt_drop (S : List Block) (m j : Nat) :
    blockAt (S.drop m) j = blockAt S (m + j) := by
  rw [blockAt, blockAt, List.getD_eq_getElem?_getD, List.getD_eq_getElem?_getD,
    List.getElem?_drop]

/-- Decompose a chain at a valid index. -/
theorem chain_decomp {bs : List Block} {k : Nat} (hk : k < bs.length) :
    bs = bs.take k ++ blockAt bs k :: bs.drop (k + 1) ∧ (bs.take k).length = k := by
  constructor
  · conv_lhs => rw [← List.take_append_drop k bs]
    rw [List.drop_eq_getElem_cons hk, blockAt_eq_getElem hk]
  · rw [List.length_take]
    omega

/-- Merging a free block with a free prefix of its right neighbours (the
shape of every `coalesce` result) preserves all allocated blocks: same
payload address, same size. -/
theorem allocAt_merge_drop {P S : List Block} {b b' : Block} {m : Nat}
    (hm : m ≤ S.length) (hb : b.alloc = false) (hb' : b'.alloc = false)
    (hsize : b'.size = b.size + sumSizes (S.take m))
    (hfree : ∀ x ∈ S.take m, x.alloc = false) :
    ∀ a s, AllocAt (P ++ b :: S) a s → AllocAt (P ++ b' :: S.drop m) a s := by
  intro a s ⟨k, hk, haddr, hblk⟩
  have hlen : (P ++ b :: S).length = P.length + 1 + S.length := by simp; omega
  have hlen' : (P ++ b' :: S.drop m).length = P.length + 1 + (S.length - m) := by
    simp; omega
  rcases Nat.lt_trichotomy k P.length with hkP | rfl | hkP
  · refine ⟨k, by omega, ?_, ?_⟩
    · rw [addrOf_append_left _ (by omega : k ≤ P.length)] at haddr ⊢
      exact haddr
    · rw [blockAt_append_left _ hkP] at hblk ⊢
      exact hblk
  · rw [blockAt_concat_self] at hblk
    rw [hblk] at hb
    simp at hb
  · obtain ⟨i, rfl⟩ : ∃ i, k = P.length + 1 + i := ⟨k - P.length - 1, by omega⟩
    rw [blockAt_concat_right] at hblk
    by_cases him : i < m
    · exfalso
      have hmem : blockAt S i ∈ S.take m := by
        rw [← blockAt_take him]
        apply blockAt_mem
        rw [List.length_take]
        omega
      have := hfree _ hmem
      rw [hblk] at this
      simp at this
    · refine ⟨P.length + 1 + (i - m), by rw [hlen] at hk; omega, ?_, ?_⟩
      · rw [addrOf_concat_right] at haddr ⊢
        rw [← haddr, hsize]
        have : S.take i = S.take m ++ (S.drop m).take (i - m) := by
          conv_lhs => rw [show i = m + (i - m) from by omega]
          rw [List.take_add]
        rw [this, sumSizes_append]
        omega
      · rw [blockAt_concat_right, blockAt_drop,
          show m + (i - m) = i from by omega]
        exact hblk

theorem chain_last_alloc {Q : List Block} {p : Block}
    (hP : List.Chain' okPair (Q ++ [p])) (hpf : p.alloc = false) :
    ∀ x ∈ Q.getLast?, x.alloc = true := by
  intro x hx
  have := (List.chain'_append.1 hP).2.2 x hx p (by rfl)
  rcases this with h | h
  · exact h
  · rw [hpf] at h
    cases h

theorem prevAllocAt_concat_last_alloc {P S : List Block} {b : Block}
    (h : ¬ prevAllocAt (P ++ b :: S) P.length = false) :
    ∀ x ∈ P.getLast?, x.alloc = true := by
  intro x hx
  rcases List.eq_nil_or_concat P with rfl | ⟨Q, p, rfl⟩
  · simp at hx
  · simp only [List.concat_eq_append] at hx h
    rw [List.getLast?_concat] at hx
    have hxp : x = p := by have h3 := hx; simp at h3; exact h3.symm
    rw [prevAllocAt, if_neg (by simp)] at h
    have h1 : (Q ++ [p]).length - 1 = Q.length := by simp
    have h2 : (Q ++ [p]) ++ b :: S = Q ++ p :: (b :: S) := by simp
    rw [h1, h2, blockAt_concat_self] at h
    rw [hxp]
    cases hpa : p.alloc
    · exact absurd hpa h
    · rfl

/-- Specification of `coalesce` on a free block in an otherwise
adjacency-clean chain: both the left cascade and the right cascade are
covered.  The result is again a decomposed chain around a free block, all
invariants hold, and every allocated block survives untouched. -/
theorem coalesce_spec (P S : List Block) (b : Block) (fl : List Nat)
    (hb : b.alloc = false)
    (hP : List.Chain' okPair P)
    (hS : List.Chain' okPair S)
    (hsz : sizesOk (P ++ b :: S))
    (hflS : flSound ⟨P ++ b :: S, fl⟩)
    (hflC : flComplete ⟨P ++ b :: S, fl⟩)
    (hnd : fl.Nodup) :
    ∃ P₁ b₁ S₁ fl₁,
      coalesce ⟨P ++ b :: S, fl⟩ P.length = (⟨P₁ ++ b₁ :: S₁, fl₁⟩, P₁.length) ∧
      b₁.alloc = false ∧
      NoAdjFree (P₁ ++ b₁ :: S₁) ∧
      sizesOk (P₁ ++ b₁ :: S₁) ∧
      flSound ⟨P₁ ++ b₁ :: S₁, fl₁⟩ ∧
      flComplete ⟨P₁ ++ b₁ :: S₁, fl₁⟩ ∧
      fl₁.Nodup ∧
      (∀ a s, AllocAt (P ++ b :: S) a s → AllocAt (P₁ ++ b₁ :: S₁) a s) := by
  by_cases hpa : prevAllocAt (P ++ b :: S) P.length = false
  · -- the left neighbour is free: one recursive step into it, then the
    -- right cascade from there
    obtain ⟨Q, p, rfl, hpf⟩ := prevAllocAt_concat_false hpa
    have hassoc : (Q ++ [p]) ++ b :: S = Q ++ p :: (b :: S) := by simp
    have hQ : List.Chain' okPair Q := (List.chain'_append.1 hP).1
    have hQlast : ∀ x ∈ Q.getLast?, x.alloc = true := chain_last_alloc hP hpf
    obtain ⟨b2, S2, fl2, m, heq, hb2, hm, hS2, hsize2, hpre2, hnadj, hsz2,
      hflS2, hflC2, hnd2⟩ :=
      coalesceGo_R Q (b :: S) ((Q ++ p :: b :: S).length + (Q ++ [p]).length) p fl
        (by simp; omega) hpf hQ hQlast (by simpa using hS)
        (by rw [← hassoc]; exact hsz)
        (by rw [show (⟨Q ++ p :: b :: S, fl⟩ : Heap) = ⟨(Q ++ [p]) ++ b :: S, fl⟩ from by rw [hassoc]]; exact hflS)
        (by rw [show (⟨Q ++ p :: b :: S, fl⟩ : Heap) = ⟨(Q ++ [p]) ++ b :: S, fl⟩ from by rw [hassoc]]; exact hflC)
        hnd
    refine ⟨Q, b2, S2, fl2, ?_, hb2, hnadj, hsz2, hflS2, hflC2, hnd2, ?_⟩
    · rw [coalesce]
      have hfuel : (⟨(Q ++ [p]) ++ b :: S, fl⟩ : Heap).blocks.length + (Q ++ [p]).length + 1 =
          ((Q ++ p :: b :: S).length + (Q ++ [p]).length) + 1 := by
        simp
      rw [hfuel, coalesceGo]
      rw [if_pos hpa]
      have h1 : (Q ++ [p]).length - 1 = Q.length := by simp
      rw [show (⟨(Q ++ [p]) ++ b :: S, fl⟩ : Heap) = ⟨Q ++ p :: b :: S, fl⟩ from by rw [hassoc], h1]
      exact heq
    · intro a s hA
      rw [show ((Q ++ [p]) ++ b :: S) = Q ++ p :: (b :: S) from hassoc] at hA
      rw [hS2]
      exact allocAt_merge_drop hm hpf hb2 hsize2 hpre2 a s hA
  · -- the left neighbour is allocated (or `b` is the first block)
    have hPlast := prevAllocAt_concat_last_alloc hpa
    obtain ⟨b2, S2, fl2, m, heq, hb2, hm, hS2, hsize2, hpre2, hnadj, hsz2,
      hflS2, hflC2, hnd2⟩ :=
      coalesceGo_R P S ((P ++ b :: S).length + P.length + 1) b fl
        (by simp; omega) hb hP hPlast (by rw [List.drop_one]; exact hS.tail)
        hsz hflS hflC hnd
    refine ⟨P, b2, S2, fl2, ?_, hb2, hnadj, hsz2, hflS2, hflC2, hnd2, ?_⟩
    · rw [coalesce]
      exact heq
    · intro a s hA
      rw [hS2]
      exact allocAt_merge_drop hm hb hb2 hsize2 hpre2 a s hA


/-! ### Characterizing the free list as the set of free-block addresses -/

theorem isFreeAddr_iff_freeAt {bs : List Block} (hpos : ∀ x ∈ bs, 0 < x.size)
    (a : Nat) : isFreeAddr bs a = true ↔ FreeAt bs a :=
  isFreeAddr_iff hpos a

theorem fl_iff_of_sound_complete {bs : List Block} {fl : List Nat}
    (hpos : ∀ x ∈ bs, 0 < x.size)
    (hflS : flSound ⟨bs, fl⟩) (hflC : flComplete ⟨bs, fl⟩) :
    ∀ a, a ∈ fl ↔ FreeAt bs a := by
  intro a
  constructor
  · intro ha
    exact (isFreeAddr_iff_freeAt hpos a).1 (hflS a ha)
  · rintro ⟨k, hk, rfl, hfree⟩
    exact hflC k (by rw [List.mem_range]; exact hk) hfree

theorem sound_complete_of_fl_iff {bs : List Block} {fl : List Nat}
    (hpos : ∀ x ∈ bs, 0 < x.size)
    (hiff : ∀ a, a ∈ fl ↔ FreeAt bs a) :
    flSound ⟨bs, fl⟩ ∧ flComplete ⟨bs, fl⟩ := by
  constructor
  · intro a ha
    exact (isFreeAddr_iff_freeAt hpos a).2 ((hiff a).1 ha)
  · intro k hk hfree
    rw [List.mem_range] at hk
    exact (hiff _).2 ⟨k, hk, rfl, hfree⟩

/-- Where the free blocks of a decomposed chain sit: in the prefix, at the
decomposition point, or in the suffix. -/
theorem freeAt_concat_iff (P S : List Block) (b : Block) (a : Nat) :
    FreeAt (P ++ b :: S) a ↔
      ((∃ j, j < P.length ∧ addrOf P j = a ∧ (blockAt P j).alloc = false) ∨
       (a = 16 + sumSizes P ∧ b.alloc = false) ∨
       (∃ i, i < S.length ∧ a = 16 + sumSizes P + b.size + sumSizes (S.take i) ∧
         (blockAt S i).alloc = false)) := by
  constructor
  · rintro ⟨k, hk, rfl, hfree⟩
    have hlen : (P ++ b :: S).length = P.length + 1 + S.length := by simp; omega
    rcases Nat.lt_trichotomy k P.length with hkP | rfl | hkP
    · left
      refine ⟨k, hkP, ?_, ?_⟩
      · rw [addrOf_append_left _ (by omega)]
      · rwa [blockAt_append_left _ hkP] at hfree
    · right; left
      rw [addrOf_concat_self]
      rw [blockAt_concat_self] at hfree
      exact ⟨rfl, hfree⟩
    · right; right
      obtain ⟨i, rfl⟩ : ∃ i, k = P.length + 1 + i := ⟨k - P.length - 1, by omega⟩
      refine ⟨i, by omega, ?_, ?_⟩
      · rw [addrOf_concat_right]
      · rwa [blockAt_concat_right] at hfree
  · rintro (⟨j, hj, haddr, hfree⟩ | ⟨rfl, hfree⟩ | ⟨i, hi, rfl, hfree⟩)
    · refine ⟨j, by simp; omega, ?_, ?_⟩
      · rw [addrOf_append_left _ (by omega)]; exact haddr
      · rwa [blockAt_append_left _ hj]
    · refine ⟨P.length, by simp, ?_, ?_⟩
      · rw [addrOf_concat_self]
      · rwa [blockAt_concat_self]
    · refine ⟨P.length + 1 + i, by simp; omega, ?_, ?_⟩
      · rw [addrOf_concat_right]
      · rwa [blockAt_concat_right]

/-! ### `mm_free` preserves the invariants -/

theorem sizesOk_of_concat_parts {P S : List Block} {b : Block}
    (h : sizesOk (P ++ b :: S)) :
    sizesOk P ∧ (24 ≤ b.size ∧ b.size % 8 = 0) ∧ sizesOk S :=
  ⟨fun x hx => h x (by simp [hx]), h b (by simp),
   fun x hx => h x (by simp [hx])⟩

theorem sizesOk_concat_parts {P S : List Block} {b : Block}
    (hP : sizesOk P) (hb : 24 ≤ b.size ∧ b.size % 8 = 0) (hS : sizesOk S) :
    sizesOk (P ++ b :: S) := by
  intro x hx
  rcases List.mem_append.1 hx with hx | hx
  · exact hP x hx
  · rcases List.mem_cons.1 hx with rfl | hx
    · exact hb
    · exact hS x hx

theorem WF_mm_free (h : Heap) (p : Option Nat) (hWF : WF h)
    (hv : validPtrOpt h p) : WF (mm_free h p) := by
  obtain ⟨hsz, hadj, hflS, hflC, hnd⟩ := hWF
  match p with
  | none => exact ⟨hsz, hadj, hflS, hflC, hnd⟩
  | some a =>
    obtain ⟨k, hidx, halloc⟩ := hv
    obtain ⟨hk, haddr⟩ := idxOf_sound hidx
    obtain ⟨hdec, hlenP⟩ := chain_decomp hk
    set P := h.blocks.take k with hP
    set S := h.blocks.drop (k + 1) with hS
    set blk := blockAt h.blocks k with hblk
    have hpos : ∀ x ∈ h.blocks, 0 < x.size := fun x hx => by
      have := (hsz x hx).1; omega
    -- the heap passed to coalesce
    have hset : h.blocks.set k ⟨blk.size, false⟩ = P ++ (⟨blk.size, false⟩ : Block) :: S := by
      rw [List.set_eq_take_append_cons_drop, if_pos hk]
    have hszP : sizesOk (P ++ blk :: S) := by rw [← hdec]; exact hsz
    obtain ⟨hszP1, hszb, hszS⟩ := sizesOk_of_concat_parts hszP
    have hsz' : sizesOk (P ++ (⟨blk.size, false⟩ : Block) :: S) :=
      sizesOk_concat_parts hszP1 hszb hszS
    have hpos' : ∀ x ∈ P ++ (⟨blk.size, false⟩ : Block) :: S, 0 < x.size := fun x hx => by
      have := (hsz' x hx).1; omega
    have hadj' : List.Chain' okPair (P ++ blk :: S) := by rw [← hdec]; exact hadj
    have hchainP : List.Chain' okPair P := hadj'.left_of_append
    have hchainS : List.Chain' okPair S := hadj'.right_of_append.tail
    have hmidaddr : a = 16 + sumSizes P := by
      rw [← haddr]
      conv_lhs => rw [hdec]
      rw [← hlenP, addrOf_concat_self]
    have hflIff0 := fl_iff_of_sound_complete hpos hflS hflC
    have hflIff : ∀ x, x ∈ h.fl ↔ FreeAt (P ++ blk :: S) x := by
      intro x
      rw [← hdec]
      exact hflIff0 x
    have hnotin : a ∉ h.fl := by
      intro hin
      obtain ⟨j, hj, hja, hjf⟩ := (hflIff0 a).1 hin
      have hjk : j = k := by
        apply addrOf_inj hpos (by omega) (by omega)
        rw [hja, haddr]
      rw [hjk, ← hblk] at hjf
      rw [hjf] at halloc
      cases halloc
    have hiff' : ∀ x, x ∈ add_freeblock h.fl a ↔
        FreeAt (P ++ (⟨blk.size, false⟩ : Block) :: S) x := by
      intro x
      rw [add_freeblock, List.mem_append, List.mem_singleton, hflIff x,
        freeAt_concat_iff, freeAt_concat_iff]
      constructor
      · rintro ((hL | ⟨hx, hbf⟩ | hR) | rfl)
        · exact Or.inl hL
        · -- the freed block was allocated, so this case is vacuous
          rw [halloc] at hbf
          cases hbf
        · exact Or.inr (Or.inr hR)
        · exact Or.inr (Or.inl ⟨hmidaddr, rfl⟩)
      · rintro (hL | ⟨hx, -⟩ | hR)
        · exact Or.inl (Or.inl hL)
        · right
          rw [hx, hmidaddr]
        · exact Or.inl (Or.inr (Or.inr hR))
    have hflS' : flSound ⟨P ++ (⟨blk.size, false⟩ : Block) :: S, add_freeblock h.fl a⟩ :=
      (sound_complete_of_fl_iff hpos' hiff').1
    have hflC' : flComplete ⟨P ++ (⟨blk.size, false⟩ : Block) :: S, add_freeblock h.fl a⟩ :=
      (sound_complete_of_fl_iff hpos' hiff').2
    have hnd' : (add_freeblock h.fl a).Nodup := by
      rw [add_freeblock]
      exact List.Nodup.append hnd (List.nodup_singleton a)
        (by intro x hx hx'; rw [List.mem_singleton] at hx'; subst hx'; exact hnotin hx)
    obtain ⟨P₁, b₁, S₁, fl₁, heq, hb₁, hnadj₁, hsz₁, hflS₁, hflC₁, hnd₁, hpres₁⟩ :=
      coalesce_spec P S ⟨blk.size, false⟩ (add_freeblock h.fl a) rfl hchainP hchainS
        hsz' hflS' hflC' hnd'
    show WF (mm_free h (some a))
    rw [mm_free]
    rw [hidx]
    simp only []
    rw [show (⟨h.blocks.set k ⟨(blockAt h.blocks k).size, false⟩, add_freeblock h.fl a⟩ : Heap)
        = ⟨P ++ (⟨blk.size, false⟩ : Block) :: S, add_freeblock h.fl a⟩ from by rw [hset]]
    rw [show k = P.length from hlenP.symm]
    rw [heq]
    exact ⟨hsz₁, hnadj₁, hflS₁, hflC₁, hnd₁⟩

/-! ### Alignment and adjusted-size facts -/

theorem sumSizes_mod8 {l : List Block} (h : ∀ x ∈ l, x.size % 8 = 0) :
    sumSizes l % 8 = 0 := by
  induction l with
  | nil => rfl
  | cons x xs ih =>
    rw [sumSizes_cons]
    have h1 := h x (List.mem_cons_self _ _)
    have h2 := ih (fun y hy => h y (List.mem_cons_of_mem _ hy))
    omega

theorem addrOf_aligned {bs : List Block} (hsz : sizesOk bs) (k : Nat) :
    addrOf bs k % 8 = 0 := by
  rw [addrOf]
  have : sumSizes (bs.take k) % 8 = 0 :=
    sumSizes_mod8 (fun x hx => (hsz x (List.mem_of_mem_take hx)).2)
  omega

theorem find_fit_mem {h : Heap} {asize a : Nat} (hf : find_fit h asize = some a) :
    a ∈ h.fl := by
  rw [find_fit, find_fit_loop_eq_find? h asize h.fl] at hf
  exact List.mem_of_find?_eq_some hf

theorem pow64_lit : (2 : Nat) ^ 64 = 18446744073709551616 := by norm_num

theorem pow31_lit : (2 : Nat) ^ 31 = 2147483648 := by norm_num

theorem pow32_lit : (2 : Nat) ^ 32 = 4294967296 := by norm_num

theorem ALIGN_facts {s : Nat} (hb : s ≤ 2 ^ 31) :
    ALIGN s % 8 = 0 ∧ s ≤ ALIGN s ∧ ALIGN s ≤ s + 7 := by
  rw [ALIGN, pow64_lit]
  rw [pow31_lit] at hb
  have h1 : (s + 7) % 18446744073709551616 = s + 7 := by omega
  rw [h1]
  omega

theorem malloc_adjust_facts {size : Nat} (hb : size ≤ 2 ^ 31) :
    24 ≤ malloc_adjust size ∧ malloc_adjust size % 8 = 0 ∧
    malloc_adjust size ≤ 2 ^ 31 + 16 ∧
    malloc_adjust size = 4 + ALIGN (if size < 16 then 16 else size) + 4 := by
  rw [malloc_adjust]
  have hb' : (if size < 16 then 16 else size) ≤ 2 ^ 31 := by
    split
    · rw [pow31_lit]; omega
    · exact hb
  obtain ⟨ha1, ha2, ha3⟩ := ALIGN_facts hb'
  have h16 : 16 ≤ (if size < 16 then 16 else size) := by
    split
    · omega
    · omega
  have hmod : (4 + ALIGN (if size < 16 then 16 else size) + 4) % 2 ^ 64 =
      4 + ALIGN (if size < 16 then 16 else size) + 4 := by
    rw [pow64_lit]
    rw [pow31_lit] at hb'
    omega
  rw [hmod]
  refine ⟨by omega, by omega, ?_, rfl⟩
  rw [pow31_lit] at hb' ⊢
  omega

theorem realloc_adjust_facts {size : Nat} (hp : 0 < size) (hb : size ≤ 2 ^ 31) :
    16 ≤ realloc_adjust size ∧ realloc_adjust size % 8 = 0 ∧
    realloc_adjust size ≤ 2 ^ 31 + 16 ∧ size ≤ realloc_adjust size - 8 := by
  rw [realloc_adjust]
  obtain ⟨ha1, ha2, ha3⟩ := ALIGN_facts hb
  have hmod : (4 + ALIGN size + 4) % 2 ^ 64 = 4 + ALIGN size + 4 := by
    rw [pow64_lit]
    rw [pow31_lit] at hb
    omega
  simp only [hmod]
  refine ⟨by omega, by omega, ?_, by omega⟩
  rw [pow31_lit] at hb ⊢
  omega

/-! ### `extend_heap` preserves the invariants -/

theorem extend_heap_none (h : Heap) (words : Nat) :
    extend_heap h words false = none := rfl

theorem extend_heap_spec (h : Heap) (words : Nat) (hWF : WF h) (hw : 6 ≤ words) :
    ∃ h1 r, extend_heap h words true = some (h1, r) ∧ WF h1 ∧
      r < h1.blocks.length ∧ (blockAt h1.blocks r).alloc = false ∧
      (∀ a s, AllocAt h.blocks a s → AllocAt h1.blocks a s) := by
  obtain ⟨hsz, hadj, hflS, hflC, hnd⟩ := hWF
  set size := if words % 2 = 1 then (words + 1) * 4 else words * 4 with hsize
  have hsz24 : 24 ≤ size ∧ size % 8 = 0 := by
    rw [hsize]
    split
    · constructor
      · omega
      · omega
    · rename_i hpar
      constructor
      · omega
      · have : words % 2 = 0 := by omega
        omega
  set nb : Block := ⟨size, false⟩ with hnb
  have hpos : ∀ x ∈ h.blocks, 0 < x.size := fun x hx => by
    have := (hsz x hx).1; omega
  have hsznew : sizesOk (h.blocks ++ nb :: []) :=
    sizesOk_concat_parts hsz (by rw [hnb]; exact hsz24) (by intro x hx; simp at hx)
  have hposnew : ∀ x ∈ h.blocks ++ nb :: [], 0 < x.size := fun x hx => by
    have := (hsznew x hx).1; omega
  set a := 16 + sumSizes h.blocks with ha
  have hflIff := fl_iff_of_sound_complete hpos hflS hflC
  have hnotin : a ∉ h.fl := by
    intro hin
    obtain ⟨j, hj, hja, -⟩ := (hflIff a).1 hin
    have hlt : addrOf h.blocks j < addrOf h.blocks h.blocks.length :=
      addrOf_lt_addrOf hpos hj (Nat.le_refl _)
    rw [hja] at hlt
    rw [addrOf, List.take_length, ← ha] at hlt
    omega
  have htrans : ∀ x, FreeAt (h.blocks ++ nb :: []) x ↔ (FreeAt h.blocks x ∨ x = a) := by
    intro x
    rw [freeAt_concat_iff]
    constructor
    · rintro (⟨j, hj, hja, hjf⟩ | ⟨rfl, -⟩ | ⟨i, hi, -, -⟩)
      · exact Or.inl ⟨j, hj, hja, hjf⟩
      · exact Or.inr ha.symm
      · simp at hi
    · rintro (⟨j, hj, hja, hjf⟩ | rfl)
      · exact Or.inl ⟨j, hj, hja, hjf⟩
      · exact Or.inr (Or.inl ⟨ha, rfl⟩)
  have hiff : ∀ x, x ∈ add_freeblock h.fl a ↔ FreeAt (h.blocks ++ nb :: []) x := by
    intro x
    rw [add_freeblock, List.mem_append, List.mem_singleton, htrans x, hflIff x]
  have hflS' : flSound ⟨h.blocks ++ nb :: [], add_freeblock h.fl a⟩ :=
    (sound_complete_of_fl_iff hposnew hiff).1
  have hflC' : flComplete ⟨h.blocks ++ nb :: [], add_freeblock h.fl a⟩ :=
    (sound_complete_of_fl_iff hposnew hiff).2
  have hnd' : (add_freeblock h.fl a).Nodup := by
    rw [add_freeblock]
    exact List.Nodup.append hnd (List.nodup_singleton a)
      (by intro x hx hx'; rw [List.mem_singleton] at hx'; subst hx'; exact hnotin hx)
  obtain ⟨P₁, b₁, S₁, fl₁, heq, hb₁, hnadj₁, hsz₁, hflS₁, hflC₁, hnd₁, hpres₁⟩ :=
    coalesce_spec h.blocks [] nb (add_freeblock h.fl a) rfl hadj List.chain'_nil
      hsznew hflS' hflC' hnd'
  refine ⟨⟨P₁ ++ b₁ :: S₁, fl₁⟩, P₁.length, ?_, ⟨hsz₁, hnadj₁, hflS₁, hflC₁, hnd₁⟩,
    by simp, by rw [show ((⟨P₁ ++ b₁ :: S₁, fl₁⟩ : Heap)).blocks = P₁ ++ b₁ :: S₁ from rfl,
      blockAt_concat_self]; exact hb₁, ?_⟩
  · rw [extend_heap]
    rw [if_neg (by simp)]
    simp only []
    rw [addrOf_concat_self, ← hsize, ← hnb, ← ha]
    rw [heq]
  · intro x s hA
    apply hpres₁
    obtain ⟨k, hk, haddr, hblk⟩ := hA
    refine ⟨k, by simp; omega, ?_, ?_⟩
    · rw [addrOf_append_left _ (by omega)]
      exact haddr
    · rw [blockAt_append_left _ hk]
      exact hblk


/-! ### `place` preserves the invariants -/

theorem blockAt_cons_zero (c : Block) (l : List Block) : blockAt (c :: l) 0 = c := rfl

theorem blockAt_cons_succ (c : Block) (l : List Block) (n : Nat) :
    blockAt (c :: l) (n + 1) = blockAt l n := rfl

theorem addrOf_lt_total {P : List Block} (hpos : ∀ x ∈ P, 0 < x.size) {j : Nat}
    (hj : j < P.length) : addrOf P j < 16 + sumSizes P := by
  have h2 := addrOf_lt_addrOf hpos hj (Nat.le_refl _)
  rw [show addrOf P P.length = 16 + sumSizes P from by rw [addrOf, List.take_length]] at h2
  exact h2

theorem place_spec (h : Heap) (k asize : Nat)
    (hWF : WF h) (hk : k < h.blocks.length)
    (hfree : (blockAt h.blocks k).alloc = false)
    (h24 : 24 ≤ asize) (h8 : asize % 8 = 0) :
    WF (place h k asize) ∧
    (∀ a s, AllocAt h.blocks a s → AllocAt (place h k asize).blocks a s) := by
  obtain ⟨hsz, hadj, hflS, hflC, hnd⟩ := hWF
  obtain ⟨hdec, hlenP⟩ := chain_decomp hk
  set P := h.blocks.take k with hP
  set S := h.blocks.drop (k + 1) with hS
  set blk := blockAt h.blocks k with hblk
  have hpos : ∀ x ∈ h.blocks, 0 < x.size := fun x hx => by
    have := (hsz x hx).1; omega
  have hszP : sizesOk (P ++ blk :: S) := by rw [← hdec]; exact hsz
  obtain ⟨hszP1, hszb, hszS⟩ := sizesOk_of_concat_parts hszP
  have hposP : ∀ x ∈ P, 0 < x.size := fun x hx => by
    have := (hszP1 x hx).1; omega
  have hadj' : List.Chain' okPair (P ++ blk :: S) := by rw [← hdec]; exact hadj
  have hchainP : List.Chain' okPair P := hadj'.left_of_append
  have hchainS : List.Chain' okPair S := hadj'.right_of_append.tail
  have hbpA : addrOf h.blocks k = 16 + sumSizes P := by
    conv_lhs => rw [hdec]
    rw [← hlenP, addrOf_concat_self]
  have hflIff0 := fl_iff_of_sound_complete hpos hflS hflC
  have hflIff : ∀ x, x ∈ h.fl ↔ FreeAt (P ++ blk :: S) x := by
    intro x
    rw [← hdec]
    exact hflIff0 x
  have hLne : ∀ x, (∃ j, j < P.length ∧ addrOf P j = x ∧ (blockAt P j).alloc = false) →
      x ≠ 16 + sumSizes P := by
    intro x hx he
    obtain ⟨j, hj, hja, -⟩ := hx
    have := addrOf_lt_total hposP hj
    omega
  by_cases hsplit : 24 ≤ blk.size - asize
  · -- split: low part allocated, remainder freed and coalesced
    have hca : asize + 24 ≤ blk.size := by omega
    set nb1 : Block := (⟨asize, true⟩ : Block) with hnb1
    set nb2 : Block := (⟨blk.size - asize, false⟩ : Block) with hnb2
    have hsznew : sizesOk (P ++ nb1 :: nb2 :: S) := by
      apply sizesOk_concat_parts hszP1 (by rw [hnb1]; exact ⟨h24, h8⟩)
      intro x hx
      rcases List.mem_cons.1 hx with rfl | hx
      · rw [hnb2]
        refine ⟨by simp; omega, ?_⟩
        have := hszb.2
        simp
        omega
      · exact hszS x hx
    have hposnew : ∀ x ∈ P ++ nb1 :: nb2 :: S, 0 < x.size := fun x hx => by
      have := (hsznew x hx).1; omega
    set fl' := add_freeblock (remove_freeblock h.fl (16 + sumSizes P))
      (16 + sumSizes P + asize) with hfl'
    have hiff' : ∀ x, x ∈ fl' ↔ FreeAt (P ++ nb1 :: nb2 :: S) x := by
      intro x
      rw [hfl', add_freeblock, remove_freeblock, List.mem_append, List.mem_singleton,
        hnd.mem_erase_iff, hflIff x, freeAt_concat_iff, freeAt_concat_iff]
      constructor
      · rintro (⟨hne, (hL | ⟨rfl, -⟩ | ⟨i, hi, rfl, hf⟩)⟩ | rfl)
        · exact Or.inl hL
        · exact absurd rfl hne
        · right; right
          refine ⟨i + 1, by simp; omega, ?_, by rw [blockAt_cons_succ]; exact hf⟩
          rw [List.take_succ_cons, sumSizes_cons, hnb1, hnb2]
          simp
          omega
        · right; right
          exact ⟨0, by simp, by simp [sumSizes, hnb1], rfl⟩
      · rintro (hL | ⟨rfl, hno⟩ | ⟨i, hi, rfl, hf⟩)
        · exact Or.inl ⟨hLne _ hL, Or.inl hL⟩
        · rw [hnb1] at hno
          cases hno
        · rcases i with _ | i'
          · right
            rw [hnb1]
            simp [sumSizes]
          · left
            rw [blockAt_cons_succ] at hf
            constructor
            · rw [List.take_succ_cons, sumSizes_cons, hnb1, hnb2]
              simp
              omega
            · right; right
              refine ⟨i', by simp at hi; omega, ?_, hf⟩
              rw [List.take_succ_cons, sumSizes_cons, hnb1, hnb2]
              simp
              omega
    have hnd' : fl'.Nodup := by
      rw [hfl', add_freeblock, remove_freeblock]
      refine List.Nodup.append (hnd.erase _) (List.nodup_singleton _) ?_
      intro x hx hx'
      rw [List.mem_singleton] at hx'
      have hxfl : x ∈ h.fl := List.mem_of_mem_erase hx
      have hfx := (hflIff x).1 hxfl
      rw [freeAt_concat_iff] at hfx
      rcases hfx with ⟨j, hj, hja, -⟩ | ⟨he, -⟩ | ⟨i, hi, he, -⟩
      · have := addrOf_lt_total hposP hj
        omega
      · omega
      · have h1 := hszb.1
        omega
    have hchainP' : List.Chain' okPair (P ++ [nb1]) :=
      List.Chain'.append hchainP (List.chain'_singleton _)
        (fun x hx y hy => by simp at hy; subst hy; exact Or.inr rfl)
    have hassoc : P ++ nb1 :: nb2 :: S = (P ++ [nb1]) ++ nb2 :: S := by simp
    obtain ⟨P₁, b₁, S₁, fl₁, heq, hb₁, hnadj₁, hsz₁, hflS₁, hflC₁, hnd₁, hpres₁⟩ :=
      coalesce_spec (P ++ [nb1]) S nb2 fl' rfl hchainP' hchainS
        (by rw [← hassoc]; exact hsznew)
        (by rw [show (⟨(P ++ [nb1]) ++ nb2 :: S, fl'⟩ : Heap) = ⟨P ++ nb1 :: nb2 :: S, fl'⟩
              from by rw [hassoc]]
            exact (sound_complete_of_fl_iff hposnew hiff').1)
        (by rw [show (⟨(P ++ [nb1]) ++ nb2 :: S, fl'⟩ : Heap) = ⟨P ++ nb1 :: nb2 :: S, fl'⟩
              from by rw [hassoc]]
            exact (sound_complete_of_fl_iff hposnew hiff').2)
        hnd'
    have hplace : place h k asize = (⟨P₁ ++ b₁ :: S₁, fl₁⟩ : Heap) := by
      rw [place]
      simp only []
      rw [if_pos (by rw [← hblk]; exact hsplit)]
      rw [← hP, ← hS, ← hblk, hbpA]
      rw [show (⟨P ++ (⟨asize, true⟩ : Block) :: (⟨blk.size - asize, false⟩ : Block) :: S,
          add_freeblock (remove_freeblock h.fl (16 + sumSizes P)) (16 + sumSizes P + asize)⟩ : Heap)
        = ⟨(P ++ [nb1]) ++ nb2 :: S, fl'⟩ from by rw [← hfl', ← hnb1, ← hnb2, ← hassoc]]
      rw [show k + 1 = (P ++ [nb1]).length from by simp [hlenP]]
      rw [heq]
    rw [hplace]
    refine ⟨⟨hsz₁, hnadj₁, hflS₁, hflC₁, hnd₁⟩, ?_⟩
    intro a s hA
    apply hpres₁
    -- allocated blocks of the original chain survive the split
    rw [hdec] at hA
    rw [← hassoc]
    obtain ⟨j, hj, haddr, hb⟩ := hA
    have hlen0 : (P ++ blk :: S).length = P.length + 1 + S.length := by simp; omega
    rcases Nat.lt_trichotomy j P.length with hjP | rfl | hjP
    · refine ⟨j, by simp; omega, ?_, ?_⟩
      · rw [addrOf_append_left _ (by omega)] at haddr ⊢
        exact haddr
      · rw [blockAt_append_left _ hjP] at hb ⊢
        exact hb
    · rw [blockAt_concat_self] at hb
      rw [hb] at hfree
      simp at hfree
    · obtain ⟨i, rfl⟩ : ∃ i, j = P.length + 1 + i := ⟨j - P.length - 1, by omega⟩
      refine ⟨P.length + 2 + i, by simp; rw [hlen0] at hj; omega, ?_, ?_⟩
      · rw [addrOf_concat_right] at haddr
        rw [show P.length + 2 + i = P.length + 1 + (1 + i) from by omega,
          addrOf_concat_right, show (1 : Nat) + i = i + 1 from by omega,
          List.take_succ_cons, sumSizes_cons]
        rw [← haddr, hnb1, hnb2]
        simp
        omega
      · rw [blockAt_concat_right] at hb
        rw [show P.length + 2 + i = P.length + 1 + (1 + i) from by omega,
          blockAt_concat_right, show (1 : Nat) + i = i + 1 from by omega,
          blockAt_cons_succ]
        exact hb
  · -- no split: the whole block is consumed
    have hset : h.blocks.set k ⟨blk.size, true⟩ = P ++ (⟨blk.size, true⟩ : Block) :: S := by
      rw [List.set_eq_take_append_cons_drop, if_pos hk]
    set nb : Block := (⟨blk.size, true⟩ : Block) with hnb
    have hsznew : sizesOk (P ++ nb :: S) :=
      sizesOk_concat_parts hszP1 (by rw [hnb]; exact hszb) hszS
    have hposnew : ∀ x ∈ P ++ nb :: S, 0 < x.size := fun x hx => by
      have := (hsznew x hx).1; omega
    have hiff' : ∀ x, x ∈ remove_freeblock h.fl (16 + sumSizes P) ↔
        FreeAt (P ++ nb :: S) x := by
      intro x
      rw [remove_freeblock, hnd.mem_erase_iff, hflIff x, freeAt_concat_iff,
        freeAt_concat_iff]
      constructor
      · rintro ⟨hne, (hL | ⟨rfl, -⟩ | ⟨i, hi, rfl, hf⟩)⟩
        · exact Or.inl hL
        · exact absurd rfl hne
        · right; right
          exact ⟨i, hi, by rw [hnb], hf⟩
      · rintro (hL | ⟨rfl, hno⟩ | ⟨i, hi, rfl, hf⟩)
        · exact ⟨hLne _ hL, Or.inl hL⟩
        · rw [hnb] at hno
          cases hno
        · refine ⟨?_, Or.inr (Or.inr ⟨i, hi, by rw [hnb], hf⟩)⟩
          have h1 := hszb.1
          rw [hnb]
          simp
          omega
    have hplace : place h k asize =
        (⟨P ++ nb :: S, remove_freeblock h.fl (16 + sumSizes P)⟩ : Heap) := by
      rw [place]
      simp only []
      rw [if_neg (by rw [← hblk]; exact hsplit)]
      rw [← hblk, hbpA, hset]
    rw [hplace]
    have hchain' : List.Chain' okPair (P ++ nb :: S) := by
      refine List.Chain'.append hchainP ?_ (fun x hx y hy => by
        simp at hy; subst hy; right; rw [hnb])
      rw [List.chain'_cons']
      exact ⟨fun y hy => Or.inl (by rw [hnb]), hchainS⟩
    refine ⟨⟨hsznew, hchain', (sound_complete_of_fl_iff hposnew hiff').1,
      (sound_complete_of_fl_iff hposnew hiff').2, hnd.erase _⟩, ?_⟩
    intro a s hA
    rw [hdec] at hA
    obtain ⟨j, hj, haddr, hb⟩ := hA
    have hlen0 : (P ++ blk :: S).length = P.length + 1 + S.length := by simp; omega
    rcases Nat.lt_trichotomy j P.length with hjP | rfl | hjP
    · refine ⟨j, by simp; omega, ?_, ?_⟩
      · rw [addrOf_append_left _ (by omega)] at haddr ⊢
        exact haddr
      · rw [blockAt_append_left _ hjP] at hb ⊢
        exact hb
    · rw [blockAt_concat_self] at hb
      rw [hb] at hfree
      simp at hfree
    · obtain ⟨i, rfl⟩ : ∃ i, j = P.length + 1 + i := ⟨j - P.length - 1, by omega⟩
      refine ⟨P.length + 1 + i, by simp; rw [hlen0] at hj; omega, ?_, ?_⟩
      · rw [addrOf_concat_right] at haddr ⊢
        rw [← haddr, hnb]
      · rw [blockAt_concat_right] at hb ⊢
        exact hb


/-! ### `mm_malloc` preserves the invariants and returns aligned payloads -/

theorem mm_malloc_spec (h : Heap) (size : Nat) (sbrkOk : Bool) (hWF : WF h)
    (hb : size ≤ 2 ^ 31) :
    WF (mm_malloc h size sbrkOk).1 ∧
    (∀ a s, AllocAt h.blocks a s → AllocAt (mm_malloc h size sbrkOk).1.blocks a s) ∧
    (∀ a, (mm_malloc h size sbrkOk).2 = some a → a % 8 = 0) := by
  by_cases hz : size = 0
  · have h0 : mm_malloc h size sbrkOk = (h, none) := by
      rw [mm_malloc, if_pos hz]
    rw [h0]
    exact ⟨hWF, fun a s hA => hA, fun a ha => by cases ha⟩
  · obtain ⟨h24, h8, hle, -⟩ := malloc_adjust_facts hb
    have hpos : ∀ x ∈ h.blocks, 0 < x.size := fun x hx => by
      have := (hWF.1 x hx).1; omega
    cases hf : find_fit h (malloc_adjust size) with
    | some bp =>
      have hbp : bp ∈ h.fl := find_fit_mem hf
      have hflIff := fl_iff_of_sound_complete hpos hWF.2.2.1 hWF.2.2.2.1
      obtain ⟨j, hj, hja, hjf⟩ := (hflIff bp).1 hbp
      have hidx : idxOf h.blocks bp = some j := by
        rw [← hja]
        exact idxOf_addrOf hpos hj
      have hmall : mm_malloc h size sbrkOk =
          (place h j (malloc_adjust size), some bp) := by
        rw [mm_malloc, if_neg hz]
        simp only []
        rw [hf]
        simp only []
        rw [hidx]
        rfl
      obtain ⟨hWF', hpres⟩ := place_spec h j (malloc_adjust size) hWF hj hjf h24 h8
      refine ⟨by rw [hmall]; exact hWF', by rw [hmall]; exact hpres, ?_⟩
      intro a ha
      rw [hmall] at ha
      simp at ha
      subst ha
      rw [← hja]
      exact addrOf_aligned hWF.1 j
    | none =>
      set words := max (malloc_adjust size) (2 ^ 9) % 2 ^ 32 / 4 with hwords
      have hmax : max (malloc_adjust size) (2 ^ 9) % 2 ^ 32 =
          max (malloc_adjust size) (2 ^ 9) := by
        apply Nat.mod_eq_of_lt
        rw [pow32_lit]
        rw [pow31_lit] at hle
        have : (2 : Nat) ^ 9 = 512 := by norm_num
        omega
      have hw : 6 ≤ words := by
        rw [hwords, hmax]
        have : (2 : Nat) ^ 9 = 512 := by norm_num
        have h2 : 512 ≤ max (malloc_adjust size) (2 ^ 9) := by
          rw [this]
          omega
        omega
      cases sbrkOk with
      | false =>
        have h0 : mm_malloc h size false = (h, none) := by
          rw [mm_malloc, if_neg hz]
          simp only []
          rw [hf]
          simp only []
          rw [← hwords, extend_heap_none]
        rw [h0]
        exact ⟨hWF, fun a s hA => hA, fun a ha => by cases ha⟩
      | true =>
        obtain ⟨h1, r, hext, hWF1, hr, hrf, hpres1⟩ := extend_heap_spec h words hWF hw
        have hmall : mm_malloc h size true =
            (place h1 r (malloc_adjust size), some (addrOf h1.blocks r)) := by
          rw [mm_malloc, if_neg hz]
          simp only []
          rw [hf]
          simp only []
          rw [← hwords, hext]
        obtain ⟨hWF2, hpres2⟩ := place_spec h1 r (malloc_adjust size) hWF1 hr hrf h24 h8
        refine ⟨by rw [hmall]; exact hWF2, ?_, ?_⟩
        · intro a s hA
          rw [hmall]
          exact hpres2 a s (hpres1 a s hA)
        · intro a ha
          rw [hmall] at ha
          simp at ha
          subst ha
          exact addrOf_aligned hWF1.1 r


/-! ### `mm_realloc`: helper lemmas -/

theorem addrOf_succ {bs : List Block} {k : Nat} (hk : k < bs.length) :
    addrOf bs (k + 1) = addrOf bs k + (blockAt bs k).size := by
  rw [addrOf, addrOf, List.take_succ, sumSizes_append]
  have : bs[k]?.toList = [blockAt bs k] := by
    rw [List.getElem?_eq_getElem hk, blockAt_eq_getElem hk]
    rfl
  rw [this]
  simp [sumSizes]
  omega

theorem idxOf_end_none {bs : List Block} (hpos : ∀ x ∈ bs, 0 < x.size) :
    idxOf bs (addrOf bs bs.length) = none := by
  cases hi : idxOf bs (addrOf bs bs.length) with
  | none => rfl
  | some j =>
    obtain ⟨hj, hja⟩ := idxOf_sound hi
    have := addrOf_lt_addrOf hpos hj (Nat.le_refl bs.length)
    rw [hja] at this
    omega

theorem shrink_noop {h : Heap} {k asize : Nat}
    (hge : ¬ ((blockAt h.blocks k).size < asize)) : shrink h k asize = h := by
  rw [shrink]
  simp only []
  rw [if_neg hge]

/-- In an adjacency-clean heap, the `coalesce(NEXT_BLKP(ptr))` call in
`mm_realloc` (mm.c:369) finds both neighbours of the free right neighbour
allocated and returns immediately. -/
theorem coalesce_noop_next {h : Heap} {k : Nat} (hWF : WF h)
    (hk : k + 1 < h.blocks.length)
    (halloc : (blockAt h.blocks k).alloc = true)
    (hnf : (blockAt h.blocks (k + 1)).alloc = false) :
    coalesce h (k + 1) = (h, k + 1) := by
  have hnext2 : (blockAt h.blocks (k + 2)).alloc = true := by
    by_cases h2 : k + 2 < h.blocks.length
    · -- from the no-adjacent-free invariant
      obtain ⟨hdec, hlenP⟩ := chain_decomp (show k + 1 < h.blocks.length from hk)
      have hadj' : List.Chain' okPair (h.blocks.take (k + 1) ++
          blockAt h.blocks (k + 1) :: h.blocks.drop (k + 2)) := by
        rw [← hdec]; exact hWF.2.1
      have hchainT : List.Chain' okPair (blockAt h.blocks (k + 1) :: h.blocks.drop (k + 2)) :=
        hadj'.right_of_append
      have hd : h.blocks.drop (k + 2) = blockAt h.blocks (k + 2) :: h.blocks.drop (k + 3) := by
        rw [List.drop_eq_getElem_cons h2, blockAt_eq_getElem h2]
      rw [hd] at hchainT
      rw [List.chain'_cons] at hchainT
      rcases hchainT.1 with hok | hok
      · rw [hnf] at hok
        cases hok
      · exact hok
    · rw [blockAt_oob (by omega)]
  rw [coalesce]
  have hfuel : h.blocks.length + (k + 1) + 1 = (h.blocks.length + k + 1) + 1 := by omega
  rw [hfuel]
  rw [coalesceGo]
  rw [if_neg (by rw [prevAllocAt, if_neg (by omega)]; simp; exact halloc)]
  rw [if_neg (by rw [nextAllocAt]; simp; exact hnext2)]


/-- Path characterization of `mm_realloc` when the right neighbour is
free: the neighbouring free block is absorbed in place — rewriting the
header/footer as one allocated block and unlinking the neighbour, with
the pointer returned unchanged and no data copy — exactly when the merged
size reaches the raw requested `size` (mm.c:373 compares against `size`,
not the adjusted size); otherwise the allocate-copy-free fallback runs. -/
theorem mm_realloc_next_free_eq (h : Heap) (ptr size : Nat) (sbrkOk : Bool) (k : Nat)
    (hWF : WF h) (hz : ¬ size = 0)
    (hidx : idxOf h.blocks ptr = some k)
    (halloc : (blockAt h.blocks k).alloc = true)
    (hk1 : k + 1 < h.blocks.length)
    (hnf : (blockAt h.blocks (k + 1)).alloc = false)
    (hge : ¬ (realloc_adjust size < (blockAt h.blocks k).size)) :
    mm_realloc h (some ptr) size sbrkOk =
      if size ≤ (blockAt h.blocks (k + 1)).size + (blockAt h.blocks k).size then
        (⟨h.blocks.take k ++
            (⟨(blockAt h.blocks (k + 1)).size + (blockAt h.blocks k).size, true⟩ : Block) ::
            h.blocks.drop (k + 2),
          remove_freeblock h.fl (ptr + (blockAt h.blocks k).size)⟩, some ptr)
      else mm_realloc_fallback h ptr size sbrkOk := by
  obtain ⟨hk, haddr⟩ := idxOf_sound hidx
  have hpos : ∀ x ∈ h.blocks, 0 < x.size := fun x hx => by
    have := (hWF.1 x hx).1; omega
  have hnextaddr : ptr + (blockAt h.blocks k).size = addrOf h.blocks (k + 1) := by
    rw [← haddr, ← addrOf_succ hk]
  have hidx2 : idxOf h.blocks (ptr + (blockAt h.blocks k).size) = some (k + 1) := by
    rw [hnextaddr]
    exact idxOf_addrOf hpos hk1
  rw [mm_realloc, if_neg hz]
  simp only []
  rw [hidx]
  simp only []
  rw [if_neg hge]
  rw [if_pos (show allocAtAddr h.blocks (ptr + (blockAt h.blocks k).size) = false from by
    rw [allocAtAddr, hidx2]; exact hnf)]
  rw [hidx2]
  simp only [Option.getD_some]
  rw [coalesce_noop_next hWF hk1 halloc hnf]
  simp only []
  rw [show sizeAtAddr h.blocks (ptr + (blockAt h.blocks k).size) =
    (blockAt h.blocks (k + 1)).size from by rw [sizeAtAddr, hidx2]]
  rw [show sizeAtAddr h.blocks ptr = (blockAt h.blocks k).size from by
    rw [sizeAtAddr, hidx]]
  rw [hidx]
  rfl

/-- The in-place growth step of `mm_realloc` preserves all invariants. -/
theorem WF_realloc_inplace {h : Heap} {k : Nat} (hWF : WF h)
    (hk1 : k + 1 < h.blocks.length)
    (halloc : (blockAt h.blocks k).alloc = true)
    (hnf : (blockAt h.blocks (k + 1)).alloc = false) :
    WF ⟨h.blocks.take k ++
        (⟨(blockAt h.blocks (k + 1)).size + (blockAt h.blocks k).size, true⟩ : Block) ::
        h.blocks.drop (k + 2),
      remove_freeblock h.fl (addrOf h.blocks (k + 1))⟩ := by
  obtain ⟨hsz, hadj, hflS, hflC, hnd⟩ := hWF
  have hk : k < h.blocks.length := by omega
  obtain ⟨hdec, hlenP⟩ := chain_decomp hk
  set P := h.blocks.take k with hP
  set blk := blockAt h.blocks k with hblk
  set nxt := blockAt h.blocks (k + 1) with hnxt
  set S2 := h.blocks.drop (k + 2) with hS2
  have hdropS : h.blocks.drop (k + 1) = nxt :: S2 := by
    rw [List.drop_eq_getElem_cons hk1, ← blockAt_eq_getElem hk1]
  have hdec2 : h.blocks = P ++ blk :: nxt :: S2 := by
    rw [hdec, hdropS]
  set nb : Block := (⟨nxt.size + blk.size, true⟩ : Block) with hnb
  have hpos : ∀ x ∈ h.blocks, 0 < x.size := fun x hx => by
    have := (hsz x hx).1; omega
  have hszP : sizesOk (P ++ blk :: nxt :: S2) := by rw [← hdec2]; exact hsz
  obtain ⟨hszP1, hszb, hszT⟩ := sizesOk_of_concat_parts hszP
  have hsznxt : 24 ≤ nxt.size ∧ nxt.size % 8 = 0 := hszT nxt (List.mem_cons_self _ _)
  have hszS2 : sizesOk S2 := fun x hx => hszT x (List.mem_cons_of_mem _ hx)
  have hposP : ∀ x ∈ P, 0 < x.size := fun x hx => by
    have := (hszP1 x hx).1; omega
  have hadj' : List.Chain' okPair (P ++ blk :: nxt :: S2) := by
    rw [← hdec2]; exact hadj
  have hchainP : List.Chain' okPair P := hadj'.left_of_append
  have hchainS2 : List.Chain' okPair S2 := hadj'.right_of_append.tail.tail
  have hsznew : sizesOk (P ++ nb :: S2) := by
    apply sizesOk_concat_parts hszP1 _ hszS2
    rw [hnb]
    constructor
    · simp
      omega
    · simp
      omega
  have hposnew : ∀ x ∈ P ++ nb :: S2, 0 < x.size := fun x hx => by
    have := (hsznew x hx).1; omega
  have hA : addrOf h.blocks (k + 1) = 16 + sumSizes P + blk.size := by
    conv_lhs => rw [hdec2]
    rw [show k + 1 = P.length + 1 from by omega, addrOf_concat_next]
  have hflIff0 := fl_iff_of_sound_complete hpos hflS hflC
  have hflIff : ∀ x, x ∈ h.fl ↔ FreeAt (P ++ blk :: nxt :: S2) x := by
    intro x
    rw [← hdec2]
    exact hflIff0 x
  have hiff' : ∀ x, x ∈ remove_freeblock h.fl (addrOf h.blocks (k + 1)) ↔
      FreeAt (P ++ nb :: S2) x := by
    intro x
    rw [remove_freeblock, hnd.mem_erase_iff, hA, hflIff x, freeAt_concat_iff,
      freeAt_concat_iff]
    constructor
    · rintro ⟨hne, (hL | ⟨rfl, hno⟩ | ⟨i, hi, rfl, hf⟩)⟩
      · exact Or.inl hL
      · rw [halloc] at hno
        cases hno
      · rcases i with _ | i'
        · exfalso
          apply hne
          simp [sumSizes]
        · right; right
          rw [blockAt_cons_succ] at hf
          refine ⟨i', by simp at hi; omega, ?_, hf⟩
          rw [List.take_succ_cons, sumSizes_cons, hnb]
          simp
          omega
    · rintro (hL | ⟨rfl, hno⟩ | ⟨i, hi, rfl, hf⟩)
      · refine ⟨?_, Or.inl hL⟩
        obtain ⟨j, hj, hja, -⟩ := hL
        have h1 := hszb.1
        have := addrOf_lt_total hposP hj
        omega
      · rw [hnb] at hno
        cases hno
      · refine ⟨?_, Or.inr (Or.inr ⟨i + 1, by simp; omega, ?_, by rw [blockAt_cons_succ]; exact hf⟩)⟩
        · rw [hnb]
          have h1 := hsznxt.1
          simp
          omega
        · rw [List.take_succ_cons, sumSizes_cons, hnb]
          simp
          omega
  have hchain' : List.Chain' okPair (P ++ nb :: S2) := by
    refine List.Chain'.append hchainP ?_ (fun x hx y hy => by
      simp at hy; subst hy; right; rw [hnb])
    rw [List.chain'_cons']
    exact ⟨fun y hy => Or.inl (by rw [hnb]), hchainS2⟩
  have hgoal : (⟨h.blocks.take k ++
      (⟨(blockAt h.blocks (k + 1)).size + (blockAt h.blocks k).size, true⟩ : Block) ::
      h.blocks.drop (k + 2),
      remove_freeblock h.fl (addrOf h.blocks (k + 1))⟩ : Heap) =
      ⟨P ++ nb :: S2, remove_freeblock h.fl (addrOf h.blocks (k + 1))⟩ := rfl
  rw [hgoal]
  exact ⟨hsznew, hchain', (sound_complete_of_fl_iff hposnew hiff').1,
    (sound_complete_of_fl_iff hposnew hiff').2, hnd.erase _⟩


/-- The allocate-copy-free fallback preserves the invariants. -/
theorem WF_fallback (h : Heap) (ptr size : Nat) (sbrkOk : Bool)
    (hWF : WF h) (hb : size ≤ 2 ^ 31) (hvalid : validPtr h ptr) :
    WF (mm_realloc_fallback h ptr size sbrkOk).1 := by
  obtain ⟨k, hidx, halloc⟩ := hvalid
  obtain ⟨hk, haddr⟩ := idxOf_sound hidx
  obtain ⟨hWF2, hpres, -⟩ := mm_malloc_spec h size sbrkOk hWF hb
  rw [mm_realloc_fallback]
  rcases hm : mm_malloc h size sbrkOk with ⟨h2, np⟩
  rw [hm] at hWF2 hpres
  cases np with
  | none => exact hWF2
  | some newptr =>
    simp only []
    have hbeta : blockAt h.blocks k = ⟨(blockAt h.blocks k).size, (blockAt h.blocks k).alloc⟩ :=
      rfl
    rw [halloc] at hbeta
    have hA : AllocAt h.blocks ptr ((blockAt h.blocks k).size) := ⟨k, hk, haddr, hbeta⟩
    obtain ⟨k2, hk2, haddr2, hblk2⟩ := hpres _ _ hA
    have hpos2 : ∀ x ∈ h2.blocks, 0 < x.size := fun x hx => by
      have := (hWF2.1 x hx).1; omega
    apply WF_mm_free h2 (some ptr) hWF2
    refine ⟨k2, ?_, ?_⟩
    · rw [← haddr2]
      exact idxOf_addrOf hpos2 hk2
    · rw [hblk2]

theorem WF_mm_realloc (h : Heap) (p : Option Nat) (size : Nat) (sbrkOk : Bool)
    (hWF : WF h) (hv : validPtrOpt h p) (hb : size ≤ 2 ^ 31) :
    WF (mm_realloc h p size sbrkOk).1 := by
  by_cases hz : size = 0
  · have h0 : mm_realloc h p size sbrkOk = (mm_free h p, none) := by
      rw [mm_realloc.eq_def, if_pos hz]
    rw [h0]
    exact WF_mm_free h p hWF hv
  · match p with
    | none =>
      have h0 : mm_realloc h none size sbrkOk = mm_malloc h size sbrkOk := by
        rw [mm_realloc, if_neg hz]
      rw [h0]
      exact (mm_malloc_spec h size sbrkOk hWF hb).1
    | some ptr =>
      obtain ⟨k, hidx, halloc⟩ := hv
      obtain ⟨hk, haddr⟩ := idxOf_sound hidx
      have hpos : ∀ x ∈ h.blocks, 0 < x.size := fun x hx => by
        have := (hWF.1 x hx).1; omega
      by_cases hsh : realloc_adjust size < (blockAt h.blocks k).size
      · -- shrink path: the inverted guard makes `shrink` a no-op
        have heq : mm_realloc h (some ptr) size sbrkOk = (h, some ptr) := by
          rw [mm_realloc, if_neg hz]
          simp only []
          rw [hidx]
          simp only []
          rw [if_pos hsh, shrink_noop (by omega)]
        rw [heq]
        exact hWF
      · by_cases hnext : k + 1 < h.blocks.length ∧ (blockAt h.blocks (k + 1)).alloc = false
        · obtain ⟨hk1, hnf⟩ := hnext
          rw [mm_realloc_next_free_eq h ptr size sbrkOk k hWF hz hidx halloc hk1 hnf hsh]
          split
          · rw [show ptr + (blockAt h.blocks k).size = addrOf h.blocks (k + 1) from by
              rw [← haddr, ← addrOf_succ hk]]
            exact WF_realloc_inplace hWF hk1 halloc hnf
          · exact WF_fallback h ptr size sbrkOk hWF hb ⟨k, hidx, halloc⟩
        · -- the right neighbour is allocated (or the epilogue): fallback
          have hnalloc : allocAtAddr h.blocks (ptr + (blockAt h.blocks k).size) = true := by
            rw [show ptr + (blockAt h.blocks k).size = addrOf h.blocks (k + 1) from by
              rw [← haddr, ← addrOf_succ hk]]
            by_cases h2 : k + 1 < h.blocks.length
            · rw [allocAtAddr, idxOf_addrOf hpos h2]
              show (blockAt h.blocks (k + 1)).alloc = true
              cases hal : (blockAt h.blocks (k + 1)).alloc
              · exact absurd ⟨h2, hal⟩ hnext
              · rfl
            · have hk1e : k + 1 = h.blocks.length := by omega
              rw [hk1e, allocAtAddr, idxOf_end_none hpos]
          have heq : mm_realloc h (some ptr) size sbrkOk =
              mm_realloc_fallback h ptr size sbrkOk := by
            rw [mm_realloc, if_neg hz]
            simp only []
            rw [hidx]
            simp only []
            rw [if_neg hsh, if_neg (by rw [hnalloc]; simp)]
          rw [heq]
          exact WF_fallback h ptr size sbrkOk hWF hb ⟨k, hidx, halloc⟩


/-! ### The well-formedness invariant holds in every reachable state -/

theorem WF_applyOp (h : Heap) (op : Op) (hWF : WF h) (hv : validOp h op) :
    WF (applyOp h op) := by
  cases op with
  | alloc size ok => exact (mm_malloc_spec h size ok hWF hv).1
  | release p => exact WF_mm_free h p hWF hv
  | reallocOp p size ok => exact WF_mm_realloc h p size ok hWF hv.1 hv.2
  | callocOp n size ok =>
    show WF (mm_calloc h n size ok).heap
    rw [mm_calloc]
    exact (mm_malloc_spec h (n * size % 2 ^ 64) ok hWF hv).1

theorem WF_initHeap : WF initHeap := by decide

theorem WF_reachable : ∀ h : Heap, Reachable h → WF h := by
  intro h hr
  induction hr with
  | init => exact WF_initHeap
  | step hr hv ih => exact WF_applyOp _ _ ih hv

/-- C1: starting from a successful `mm_init`, after every completed valid
public operation (`mm_malloc`, `mm_free`, `mm_realloc`, `calloc`) no two
blocks adjacent in the block chain are both free — the recursive
`coalesce` is exhaustive in both directions before any public operation
returns. -/
theorem C1_no_adjacent_free (h : Heap) (hr : Reachable h) : NoAdjFree h.blocks :=
  (WF_reachable h hr).2.1

/-- C1 witness: the invariant at the initial heap. -/
theorem C1_witness : NoAdjFree initHeap.blocks :=
  C1_no_adjacent_free initHeap Reachable.init

/-- C8: in every reachable heap all payload addresses are 8-byte aligned,
and every payload pointer returned by a successful `mm_malloc` from such
a heap is 8-byte aligned. -/
theorem C8_payloads_aligned (h : Heap) (hr : Reachable h) :
    (∀ k, k < h.blocks.length → addrOf h.blocks k % 8 = 0) ∧
    (∀ size sbrkOk a h', size ≤ 2 ^ 31 →
      mm_malloc h size sbrkOk = (h', some a) → a % 8 = 0) := by
  have hWF := WF_reachable h hr
  refine ⟨fun k hk => addrOf_aligned hWF.1 k, ?_⟩
  intro size ok a h' hb hm
  exact (mm_malloc_spec h size ok hWF hb).2.2 a (by rw [hm])

/-- C8 witness: alignment at the initial heap. -/
theorem C8_witness :
    (∀ k, k < initHeap.blocks.length → addrOf initHeap.blocks k % 8 = 0) ∧
    (∀ size sbrkOk a h', size ≤ 2 ^ 31 →
      mm_malloc initHeap size sbrkOk = (h', some a) → a % 8 = 0) :=
  C8_payloads_aligned initHeap Reachable.init

/-- C3: for an allocated block with a free immediate right neighbour, a
growing `mm_realloc` absorbs the neighbour in place — unlinking it from
the free list and rewriting the header/footer as one allocated block,
returning the pointer unchanged with no data copy — exactly when the
merged size covers the request (the code compares the merged size against
the raw requested `size`, mm.c:373); otherwise it takes the
allocate-copy-free fallback. -/
theorem C3_realloc_grow_in_place (h : Heap) (ptr size : Nat) (sbrkOk : Bool) (k : Nat)
    (hWF : WF h) (hz : ¬ size = 0)
    (hidx : idxOf h.blocks ptr = some k)
    (halloc : (blockAt h.blocks k).alloc = true)
    (hk1 : k + 1 < h.blocks.length)
    (hnf : (blockAt h.blocks (k + 1)).alloc = false)
    (hge : ¬ (realloc_adjust size < (blockAt h.blocks k).size)) :
    mm_realloc h (some ptr) size sbrkOk =
      if size ≤ (blockAt h.blocks (k + 1)).size + (blockAt h.blocks k).size then
        (⟨h.blocks.take k ++
            (⟨(blockAt h.blocks (k + 1)).size + (blockAt h.blocks k).size, true⟩ : Block) ::
            h.blocks.drop (k + 2),
          remove_freeblock h.fl (ptr + (blockAt h.blocks k).size)⟩, some ptr)
      else mm_realloc_fallback h ptr size sbrkOk :=
  mm_realloc_next_free_eq h ptr size sbrkOk k hWF hz hidx halloc hk1 hnf hge

/-- C3 witness: `[allocated 24 | free 24]`, `mm_realloc(16, 17)` grows in
place to one allocated 48-byte block, returning the pointer unchanged. -/
theorem C3_witness :
    WF ⟨[⟨24, true⟩, ⟨24, false⟩], [40]⟩ ∧
    mm_realloc ⟨[⟨24, true⟩, ⟨24, false⟩], [40]⟩ (some 16) 17 true =
      (⟨[⟨48, true⟩], []⟩, some 16) := by
  refine ⟨by decide, ?_⟩
  have h3 := C3_realloc_grow_in_place ⟨[⟨24, true⟩, ⟨24, false⟩], [40]⟩ 16 17 true 0
    (by decide) (by decide) (by decide) (by decide) (by decide) (by decide) (by decide)
  rw [h3]
  decide

end MM
